import Mathlib

/-
  Verification of the CanvasAPIScripts repository
  (last_nonzero_score.py and last_participation.py).

  The Python scripts are shallowly embedded: strings become lists of
  characters, dictionaries become association lists or lookup functions,
  raised exceptions become the Except monad, and the CPython pieces the
  scripts rely on (datetime.strptime with the fixed format
  %Y-%m-%dT%H:%M:%SZ, datetime.strftime, datetime comparison, str.split,
  str.strip, substring membership) are modelled faithfully, including
  strptime leniency (unpadded fields, case-insensitive literals) and the
  exactness of the float type test on scores.
-/

set_option maxRecDepth 8000

deriving instance DecidableEq for Except

namespace Canvas

/-- Python strings are modelled as lists of characters. -/
abbrev Str := List Char

/-- Runtime errors the scripts can raise: ValueError from strptime
(a format error), KeyError from a dict lookup, TypeError from comparing
datetime with None, IndexError from indexing an empty list, a network
failure from requests, and a marker for running out of loop fuel. -/
inductive PyErr where
  | formatError
  | keyError
  | typeError
  | indexError
  | network
  | nonterm
deriving DecidableEq

/-- The fields of datetime.datetime the scripts use. -/
structure Datetime where
  year : Nat
  month : Nat
  day : Nat
  hour : Nat
  minute : Nat
  second : Nat
deriving DecidableEq

/-- Lexicographic strict comparison of lists of naturals (used for the
component tuples of datetimes, as CPython compares them). -/
def listLtNat : List Nat → List Nat → Bool
  | x :: xs, y :: ys => if x = y then listLtNat xs ys else decide (x < y)
  | _, _ => false

/-- The component tuple of a datetime, in comparison order. -/
def Datetime.key (d : Datetime) : List Nat :=
  [d.year, d.month, d.day, d.hour, d.minute, d.second]

/-- Python datetime strict comparison: lexicographic on the components. -/
def dtLt (a b : Datetime) : Bool := listLtNat a.key b.key

/-- Non-strict datetime comparison, as the negation of the strict one. -/
def dtLe (a b : Datetime) : Prop := dtLt b a = false

/-- The binary maximum the walks compute: keep the current value unless
the new one is strictly later. -/
def maxD (a b : Datetime) : Datetime := if dtLt a b then b else a

/-- Binary minimum of datetimes (spec side, for the earliest due date). -/
def minD (a b : Datetime) : Datetime := if dtLt b a then b else a

/-- Maximum of a list of datetimes, none when empty (spec side). -/
def listMaxD : List Datetime → Option Datetime
  | [] => none
  | x :: xs => some (List.foldl maxD x xs)

/-- Minimum of a list of datetimes, none when empty (spec side). -/
def listMinD : List Datetime → Option Datetime
  | [] => none
  | x :: xs => some (List.foldl minD x xs)

/-- The decimal digit character for a value below ten. -/
def digitChar (k : Nat) : Char := Char.ofNat (48 + k)

/-- The value of a decimal digit character. -/
def digitVal (c : Char) : Nat := c.toNat - 48

/-- Whether a character is a decimal digit. -/
def isDig (c : Char) : Bool := 48 ≤ c.toNat && c.toNat ≤ 57

/-- One numeric field of the strptime regex for this format: either two
digits whose value lies in [lo2, hi2], or, failing that, a single digit
whose value is at least lo1 (CPython compiles %m to 1[0-2]|0[1-9]|[1-9],
%d to 3[01]|[12]d|0[1-9]|[1-9], %H to 2[0-3]|[0-1]d|d and %M, %S to
[0-5]d|d; every field here is followed by a non-digit literal, so greedy
two-digit matching agrees with the backtracking regex). -/
def parse2or1 (lo2 hi2 lo1 : Nat) : Str → Option (Nat × Str)
  | c1 :: c2 :: rest =>
    if isDig c1 && isDig c2 then
      if lo2 ≤ 10 * digitVal c1 + digitVal c2 ∧ 10 * digitVal c1 + digitVal c2 ≤ hi2 then
        some (10 * digitVal c1 + digitVal c2, rest)
      else if lo1 ≤ digitVal c1 then some (digitVal c1, c2 :: rest)
      else none
    else if isDig c1 then
      if lo1 ≤ digitVal c1 then some (digitVal c1, c2 :: rest) else none
    else none
  | [c1] =>
    if isDig c1 && decide (lo1 ≤ digitVal c1) then some (digitVal c1, []) else none
  | [] => none

/-- Exactly four digits, the strptime regex for %Y. -/
def parse4 : Str → Option (Nat × Str)
  | a :: b :: c :: d :: rest =>
    if isDig a && isDig b && isDig c && isDig d then
      some (1000 * digitVal a + 100 * digitVal b + 10 * digitVal c + digitVal d, rest)
    else none
  | _ => none

/-- A literal character of the format string. -/
def parseLit (c : Char) : Str → Option Str
  | d :: rest => if d = c then some rest else none
  | [] => none

/-- A cased literal under re.IGNORECASE (T and Z in the format). -/
def parseLitCI (a b : Char) : Str → Option Str
  | d :: rest => if d = a ∨ d = b then some rest else none
  | [] => none

/-- Days in a month, with the Gregorian leap rule, as datetime validates. -/
def daysInMonth (y m : Nat) : Nat :=
  if m = 2 then (if y % 4 = 0 ∧ (y % 100 ≠ 0 ∨ y % 400 = 0) then 29 else 28)
  else if m = 4 ∨ m = 6 ∨ m = 9 ∨ m = 11 then 30 else 31

/-- datetime.strptime(s, "%Y-%m-%dT%H:%M:%SZ"): the compiled regex match
(anchored, whole string, IGNORECASE) followed by the datetime constructor
validation (year at least 1, day within the month). Returns none where
CPython raises ValueError. -/
def strptimeTS (s : Str) : Option Datetime := do
  let (y, r1) ← parse4 s
  let r2 ← parseLit '-' r1
  let (mo, r3) ← parse2or1 1 12 1 r2
  let r4 ← parseLit '-' r3
  let (d, r5) ← parse2or1 1 31 1 r4
  let r6 ← parseLitCI 'T' 't' r5
  let (h, r7) ← parse2or1 0 23 0 r6
  let r8 ← parseLit ':' r7
  let (mi, r9) ← parse2or1 0 59 0 r8
  let r10 ← parseLit ':' r9
  let (se, r11) ← parse2or1 0 59 0 r10
  let r12 ← parseLitCI 'Z' 'z' r11
  match r12 with
  | [] => if 1 ≤ y ∧ d ≤ daysInMonth y mo then some ⟨y, mo, d, h, mi, se⟩ else none
  | _ => none

/-- z_to_dt from the scripts: None maps to None, otherwise
datetime.strptime with the fixed format (ValueError becomes formatError). -/
def z_to_dt : Option Str → Except PyErr (Option Datetime)
  | none => .ok none
  | some s =>
    match strptimeTS s with
    | some d => .ok (some d)
    | none => .error .formatError

/-- Two-digit zero-padded decimal rendering (strftime %m %d %H %M %S,
which CPython always pads). -/
def pad2 (n : Nat) : Str := [digitChar (n / 10), digitChar (n % 10)]

/-- Four-digit zero-padded decimal rendering. -/
def pad4 (n : Nat) : Str :=
  [digitChar (n / 1000), digitChar (n / 100 % 10), digitChar (n / 10 % 10), digitChar (n % 10)]

/-- The strict padded YYYY-MM-DDTHH:MM:SSZ rendering of an instant: the
fixed shape the pattern names, with every field zero padded. CPython
strftime itself does NOT pad the year below 1000; see fmtDPy. This
rendering serves as the generator of strict-shape strings. -/
def fmtD (d : Datetime) : Str :=
  pad4 d.year ++ '-' :: pad2 d.month ++ '-' :: pad2 d.day ++
    'T' :: pad2 d.hour ++ ':' :: pad2 d.minute ++ ':' :: pad2 d.second ++ ['Z']

/-- CPython strftime %Y on the target platform: the year in plain
decimal, without zero padding (datetime years have at most four digits). -/
def pyYear (y : Nat) : Str :=
  if 1000 ≤ y then pad4 y
  else if 100 ≤ y then [digitChar (y / 100), digitChar (y / 10 % 10), digitChar (y % 10)]
  else if 10 ≤ y then [digitChar (y / 10), digitChar (y % 10)]
  else [digitChar y]

/-- strftime(dto, "%Y-%m-%dT%H:%M:%SZ") as CPython renders it: the year
unpadded, every other field zero padded to two digits. -/
def fmtDPy (d : Datetime) : Str :=
  pyYear d.year ++ '-' :: pad2 d.month ++ '-' :: pad2 d.day ++
    'T' :: pad2 d.hour ++ ':' :: pad2 d.minute ++ ':' :: pad2 d.second ++ ['Z']

/-- dt_to_z from the scripts: None maps to None, otherwise strftime. -/
def dt_to_z : Option Datetime → Option Str
  | none => none
  | some d => some (fmtDPy d)

/-- The ranges within which a Datetime value is constructible by Python
datetime and renders back through the padded format. -/
def ValidRange (d : Datetime) : Prop :=
  1 ≤ d.year ∧ d.year ≤ 9999 ∧ 1 ≤ d.month ∧ d.month ≤ 12 ∧
    1 ≤ d.day ∧ d.day ≤ daysInMonth d.year d.month ∧
    d.hour ≤ 23 ∧ d.minute ≤ 59 ∧ d.second ≤ 59

instance decValidRange (d : Datetime) : Decidable (ValidRange d) := by
  unfold ValidRange
  infer_instance

/-- Python str.split(sep) for a one-character separator: the pieces
between occurrences of the separator, keeping empty pieces. -/
def pySplit (sep : Char) : Str → List Str
  | [] => [[]]
  | c :: rest =>
    match pySplit sep rest with
    | [] => [[c]]
    | h :: t => if c = sep then [] :: h :: t else (c :: h) :: t

/-- Python str.strip(chars): remove characters of the set from both ends. -/
def pyStrip (cs : List Char) (s : Str) : Str :=
  ((s.dropWhile (fun c => decide (c ∈ cs))).reverse.dropWhile
    (fun c => decide (c ∈ cs))).reverse

/-- Whether pat occurs at the start of s. -/
def startsWith : Str → Str → Bool
  | [], _ => true
  | _ :: _, [] => false
  | a :: as, b :: bs => a == b && startsWith as bs

/-- Python substring membership, pat in s. -/
def pyContains (pat : Str) : Str → Bool
  | [] => pat == []
  | c :: rest => startsWith pat (c :: rest) || pyContains pat rest

/-- Whether two given characters occur adjacently, in order, in a string
(a helper for reasoning about substring occurrences). -/
def hasPair (a b : Char) : Str → Bool
  | x :: y :: rest => (x == a && y == b) || hasPair a b (y :: rest)
  | _ => false

/-- link_info.split(";")[0].strip("<>") from get_navigation. -/
def extract_link (piece : Str) : Str :=
  pyStrip ['<', '>'] ((pySplit ';' piece).headD [])

/-- The three substrings get_navigation searches each entry for. -/
def relCurrentPat : Str := "rel=\"current\"".data

/-- The rel next marker. -/
def relNextPat : Str := "rel=\"next\"".data

/-- The rel last marker. -/
def relLastPat : Str := "rel=\"last\"".data

/-- The loop body of get_navigation: each link entry overwrites whichever
of the three accumulators its rel markers match. -/
def navFold : List Str → Str → Str → Str → Str × Str × Str
  | [], c, n, l => (c, n, l)
  | piece :: rest, c, n, l =>
    navFold rest
      (if pyContains relCurrentPat piece then extract_link piece else c)
      (if pyContains relNextPat piece then extract_link piece else n)
      (if pyContains relLastPat piece then extract_link piece else l)

/-- get_navigation from the scripts, over the comma-split link header. -/
def get_navigation (link_list : List Str) : Str × Str × Str :=
  navFold link_list [] [] []

/-- An HTTP response as the scripts consume it: the optional link header
and the JSON array body. -/
structure Resp (α : Type) where
  linkHeader : Option Str
  body : List α
deriving DecidableEq

/-- The loop of get_list. The server maps a URL to a response (none is a
network failure). A missing link header is the KeyError of
response.headers["link"]. The accumulator collects records; the trace
records every URL a GET was issued to. Fuel bounds the loop. -/
def getListAux {α : Type} (server : Str → Option (Resp α)) :
    Nat → Str → List α → List Str → Except PyErr (List α × List Str)
  | 0, _, _, _ => .error .nonterm
  | fuel + 1, url, acc, trace =>
    match server url with
    | none => .error .network
    | some resp =>
      match resp.linkHeader with
      | none => .error .keyError
      | some h =>
        let nav := get_navigation (pySplit ',' h)
        if nav.1 = nav.2.2 then .ok (acc ++ resp.body, trace ++ [url])
        else getListAux server fuel nav.2.1 (acc ++ resp.body) (trace ++ [url])

/-- get_list from the scripts, started with empty accumulator and trace. -/
def get_list {α : Type} (server : Str → Option (Resp α)) (fuel : Nat) (first_url : Str) :
    Except PyErr (List α × List Str) :=
  getListAux server fuel first_url [] []

/-- One link header entry, url in angle brackets then the rel attribute. -/
def mkPiece (u : Str) (rel : Str) : Str :=
  '<' :: u ++ (">; rel=\"".data ++ rel ++ ['"'])

/-- A link header carrying current, next and last entries. -/
def mkHeader3 (c n l : Str) : Str :=
  mkPiece c "current".data ++ ',' :: (mkPiece n "next".data ++ ',' :: mkPiece l "last".data)

/-- The URL of the page after the current one: the head of the remaining
chain, or the current URL itself on the final page. -/
def nextUrlOf {α : Type} (u : Str) : List (Str × List α) → Str
  | [] => u
  | (u2, _) :: _ => u2

/-- The URL of the final page of a chain. -/
def lastUrlOf {α : Type} (chain : List (Str × List α)) : Str :=
  match chain.getLast? with
  | some p => p.1
  | none => []

/-- The server of a finite chain of pages: each page at its URL, carrying
its records and a link header whose next points at the following page and
whose last points at the final page (the final page points at itself, so
current, next and last coincide there). -/
def chainResp {α : Type} (lastUrl : Str) : List (Str × List α) → Str → Option (Resp α)
  | [], _ => none
  | (u, recs) :: rest, q =>
    if q = u then
      some ⟨some (mkHeader3 u (nextUrlOf u rest) lastUrl), recs⟩
    else chainResp lastUrl rest q

/-- The chain server with the last URL taken from the chain itself. -/
def chainServer {α : Type} (chain : List (Str × List α)) : Str → Option (Resp α) :=
  chainResp (lastUrlOf chain) chain

/-- A two page server whose first page has a malformed link header: it
carries a rel next entry but neither rel current nor rel last. -/
def servC2 : Str → Option (Resp Nat) := fun u =>
  if u = "A".data then some ⟨some "<B>; rel=\"next\"".data, [1, 2]⟩
  else if u = "B".data then some ⟨some (mkHeader3 "B".data "B".data "B".data), [3, 4]⟩
  else none

/-- A one page server whose response has no link header at all. -/
def servN : Str → Option (Resp Nat) := fun u =>
  if u = "A".data then some ⟨none, [9]⟩ else none

/-- A concrete three page chain used to instantiate the pagination claim. -/
def c6chain : List (Str × List Nat) :=
  [("u1".data, [1, 2]), ("u2".data, [3]), ("u3".data, [4, 5])]

/-- Concatenation of a list of lists. -/
def concatAll {α : Type} : List (List α) → List α
  | [] => []
  | l :: ls => l ++ concatAll ls

/-- Concatenating map. -/
def flatMapL {α β : Type} (f : α → List β) : List α → List β
  | [] => []
  | x :: xs => f x ++ flatMapL f xs

/-- A URL that survives the link header round trip: nonempty and free of
the comma, semicolon, quote and angle bracket characters. -/
def validUrl (u : Str) : Bool :=
  !u.isEmpty && u.all (fun c => !(c == ',' || c == ';' || c == '"' || c == '<' || c == '>'))

/-- The JSON value of a submission score as Python sees it: null, an
integer, or a float (modelled by a rational). -/
inductive Score where
  | null
  | int (n : Int)
  | float (q : Rat)
deriving DecidableEq

/-- The type test the scripts apply: type(score) == float. -/
def Score.isFloat : Score → Bool
  | .float _ => true
  | _ => false

/-- The numeric value of a score (only consulted on floats by the code). -/
def Score.val : Score → Rat
  | .float q => q
  | .int n => (n : Rat)
  | .null => 0

/-- An assignment as the scripts use it: its id and its raw due_at field. -/
structure Assignment where
  id : Nat
  due_at : Option Str
deriving DecidableEq

/-- A submission as the scripts use it. -/
structure Submission where
  user_id : Nat
  score : Score
  excused : Bool
  submitted_at : Option Str
deriving DecidableEq

/-- The course snapshot the scripts assemble before aggregating: the
assignments dict (in insertion order, ids unique), the keys of the active
students dict (stringified user ids), and the submissions fetched for
each assignment id. -/
structure Snapshot where
  assignments : List Assignment
  students : List String
  subsFor : Nat → List Submission

/-- The per-student result dict. -/
abbrev StMap := List (String × Option Datetime)

/-- Dict lookup on an association list. -/
def lookupS {α : Type} : List (String × α) → String → Option α
  | [], _ => none
  | (k, v) :: rest, q => if k == q then some v else lookupS rest q

/-- Dict update of an existing key on an association list. -/
def updateS {α : Type} : List (String × α) → String → α → List (String × α)
  | [], _, _ => []
  | (k, v) :: rest, q, w => if k == q then (k, w) :: rest else (k, v) :: updateS rest q w

/-- Insert a datetime into an ascending list (list.sort step). -/
def dtInsert (x : Datetime) : List Datetime → List Datetime
  | [] => [x]
  | y :: ys => if dtLt y x then y :: dtInsert x ys else x :: y :: ys

/-- Ascending sort of datetimes, as Python list.sort orders them. -/
def dtSortL : List Datetime → List Datetime
  | [] => []
  | x :: xs => dtInsert x (dtSortL xs)

/-- The effect of list(set(x)) on membership: duplicates removed (the
order is irrelevant because the scripts sort immediately afterwards). -/
def dedupPy : List Datetime → List Datetime
  | [] => []
  | x :: xs => if x ∈ xs then dedupPy xs else x :: dedupPy xs

/-- The due_dates comprehension: parse every due_at (propagating
ValueError). -/
def parseDues : List Assignment → Except PyErr (List (Option Datetime))
  | [] => .ok []
  | a :: rest => do
    let d ← z_to_dt a.due_at
    let ds ← parseDues rest
    pure (d :: ds)

/-- One bucket of the assignments_by_due_date comprehension: the ids of
the assignments whose reparsed due date equals the bucket date. -/
def collectBucket (date : Option Datetime) : List Assignment → Except PyErr (List Nat)
  | [] => .ok []
  | a :: rest => do
    let d ← z_to_dt a.due_at
    let ids ← collectBucket date rest
    pure (if d = date then a.id :: ids else ids)

/-- All buckets of the assignments_by_due_date comprehension, in bucket
order. -/
def collectBuckets (A : List Assignment) : List (Option Datetime) → Except PyErr (List Nat)
  | [] => .ok []
  | d :: ds => do
    let ids ← collectBucket d A
    let more ← collectBuckets A ds
    pure (ids ++ more)

/-- assignment_ids_by_due_date from the scripts: distinct due dates sorted
ascending with a final undated bucket, then the assignments of each
bucket in retrieval order. -/
def assignment_ids_by_due_date (A : List Assignment) : Except PyErr (List Nat) := do
  let ds ← parseDues A
  let dates := dtSortL (dedupPy (ds.filterMap (fun x => x)))
  collectBuckets A (dates.map some ++ [none])

/-- The assignments dict lookup by id (KeyError when absent). -/
def dueOf (A : List Assignment) (aid : Nat) : Except PyErr (Option Str) :=
  match A.find? (fun a => a.id == aid) with
  | some a => .ok a.due_at
  | none => .error .keyError

/-- first_due_date from the scripts: the parsed due date of the first
assignment in the ordering; IndexError when the ordering is empty. -/
def first_due_date (A : List Assignment) : Except PyErr (Option Datetime) := do
  let ids ← assignment_ids_by_due_date A
  match ids with
  | [] => .error .indexError
  | aid :: _ => do
    let ds ← dueOf A aid
    z_to_dt ds

/-- One submission of the nonzero-score walk of last_participation.py:
skip non-float scores, reparse the due date, skip undated assignments,
skip students that are not active, then advance the student entry when
the score is positive and the due date strictly later. -/
def nzStepP (A : List Assignment) (students : List String) (st : StMap)
    (aid : Nat) (sub : Submission) : Except PyErr StMap :=
  if sub.score.isFloat = false then .ok st
  else do
    let dueStr ← dueOf A aid
    let due ← z_to_dt dueStr
    match due with
    | none => .ok st
    | some d =>
      if toString sub.user_id ∈ students then
        if 0 < sub.score.val then
          match lookupS st (toString sub.user_id) with
          | none => .error .keyError
          | some none => .error .typeError
          | some (some c) =>
            if dtLt c d then .ok (updateS st (toString sub.user_id) (some d)) else .ok st
        else .ok st
      else .ok st

/-- One submission of the nonzero-score walk of last_nonzero_score.py:
identical except that no active-student test guards the dict access, so
an unknown student with a positive float score raises KeyError. -/
def nzStepN (A : List Assignment) (st : StMap)
    (aid : Nat) (sub : Submission) : Except PyErr StMap :=
  if sub.score.isFloat = false then .ok st
  else do
    let dueStr ← dueOf A aid
    let due ← z_to_dt dueStr
    match due with
    | none => .ok st
    | some d =>
      if 0 < sub.score.val then
        match lookupS st (toString sub.user_id) with
        | none => .error .keyError
        | some none => .error .typeError
        | some (some c) =>
          if dtLt c d then .ok (updateS st (toString sub.user_id) (some d)) else .ok st
      else .ok st

/-- The submissions of one assignment, participation variant. -/
def nzSubsP (A : List Assignment) (students : List String) (aid : Nat) :
    List Submission → StMap → Except PyErr StMap
  | [], st => .ok st
  | sub :: rest, st => do
    let st2 ← nzStepP A students st aid sub
    nzSubsP A students aid rest st2

/-- The assignments of the ordering, participation variant. -/
def nzWalkP (A : List Assignment) (students : List String)
    (subsFor : Nat → List Submission) : List Nat → StMap → Except PyErr StMap
  | [], st => .ok st
  | aid :: rest, st => do
    let st2 ← nzSubsP A students aid (subsFor aid) st
    nzWalkP A students subsFor rest st2

/-- The submissions of one assignment, nonzero-script variant. -/
def nzSubsN (A : List Assignment) (aid : Nat) :
    List Submission → StMap → Except PyErr StMap
  | [], st => .ok st
  | sub :: rest, st => do
    let st2 ← nzStepN A st aid sub
    nzSubsN A aid rest st2

/-- The assignments of the ordering, nonzero-script variant. -/
def nzWalkN (A : List Assignment) (subsFor : Nat → List Submission) :
    List Nat → StMap → Except PyErr StMap
  | [], st => .ok st
  | aid :: rest, st => do
    let st2 ← nzSubsN A aid (subsFor aid) st
    nzWalkN A subsFor rest st2

/-- The last_non_zero_score aggregation of last_participation.py: order
the assignments, seed every active student with the first due date, then
walk all submissions in due date order. -/
def last_non_zero_score (snap : Snapshot) : Except PyErr StMap := do
  let ids ← assignment_ids_by_due_date snap.assignments
  let fdd ← first_due_date snap.assignments
  nzWalkP snap.assignments snap.students snap.subsFor ids
    (snap.students.map (fun s => (s, fdd)))

/-- The last_non_zero_score aggregation of last_nonzero_score.py: the
same pipeline built on the step without the active-student test. -/
def last_non_zero_score_nzs (snap : Snapshot) : Except PyErr StMap := do
  let ids ← assignment_ids_by_due_date snap.assignments
  let fdd ← first_due_date snap.assignments
  nzWalkN snap.assignments snap.subsFor ids
    (snap.students.map (fun s => (s, fdd)))

/-- One submission of the last_submission walk of last_participation.py:
parse submitted_at, skip when absent, skip students that are not active,
record the first observation, then keep the strictly later instant. -/
def lsStep (students : List String) (st : StMap) (sub : Submission) :
    Except PyErr StMap := do
  let t ← z_to_dt sub.submitted_at
  match t with
  | none => .ok st
  | some ts =>
    if toString sub.user_id ∈ students then
      match lookupS st (toString sub.user_id) with
      | none => .error .keyError
      | some none => .ok (updateS st (toString sub.user_id) (some ts))
      | some (some c) =>
        if dtLt c ts then .ok (updateS st (toString sub.user_id) (some ts)) else .ok st
    else .ok st

/-- The submissions of one assignment in the last_submission walk. -/
def lsSubs (students : List String) : List Submission → StMap → Except PyErr StMap
  | [], st => .ok st
  | sub :: rest, st => do
    let st2 ← lsStep students st sub
    lsSubs students rest st2

/-- The assignments of the all_submissions dict in the last_submission
walk, in dict insertion order. -/
def lsWalk (students : List String) (subsFor : Nat → List Submission) :
    List Assignment → StMap → Except PyErr StMap
  | [], st => .ok st
  | a :: rest, st => do
    let st2 ← lsSubs students (subsFor a.id) st
    lsWalk students subsFor rest st2

/-- The last_submission aggregation of last_participation.py: every
active student starts at None, then all submissions are walked. -/
def last_submission (snap : Snapshot) : Except PyErr StMap :=
  lsWalk snap.students snap.subsFor snap.assignments
    (snap.students.map (fun s => (s, none)))

/-- Spec side: the parsed due date of an assignment, none when the field
is null or unparsable. -/
def parsedDue (a : Assignment) : Option Datetime :=
  match z_to_dt a.due_at with
  | .ok od => od
  | .error _ => none

/-- The value assignment_ids_by_due_date computes when every due date
parses: the per bucket assignment ids over the sorted distinct dates
followed by the undated bucket. -/
def idsList (A : List Assignment) : List Nat :=
  flatMapL
    (fun date => A.filterMap (fun a => if parsedDue a = date then some a.id else none))
    ((dtSortL (dedupPy ((A.map parsedDue).filterMap (fun x => x)))).map some ++ [none])

/-- Spec side: the parsed submission timestamp. -/
def parsedSub (sub : Submission) : Option Datetime :=
  match z_to_dt sub.submitted_at with
  | .ok o => o
  | .error _ => none

/-- Spec side: all due dates carried by assignments of the course. -/
def datedDues (A : List Assignment) : List Datetime := A.filterMap parsedDue

/-- Spec side: the due dates contributed by one assignment for the given
student (its due date repeated once for each strictly positive float
scored submission of that student on it; nothing when undated). -/
def posContrib (subsFor : Nat → List Submission) (sid : String) (a : Assignment) :
    List Datetime :=
  match parsedDue a with
  | none => []
  | some d => (subsFor a.id).filterMap (fun sub =>
      if sub.score.isFloat = true ∧ 0 < sub.score.val ∧ toString sub.user_id = sid then
        some d
      else none)

/-- Spec side: the due dates of the dated assignments on which the given
student has a submission with a strictly positive float score. -/
def posDueList (snap : Snapshot) (sid : String) : List Datetime :=
  flatMapL (posContrib snap.subsFor sid) snap.assignments

/-- Spec side: the parsed submitted_at instants of all submissions of the
given student, across every assignment. -/
def subTimes (snap : Snapshot) (sid : String) : List Datetime :=
  flatMapL (fun a => (snap.subsFor a.id).filterMap (fun sub =>
      if toString sub.user_id = sid then parsedSub sub else none))
    snap.assignments

/-- The due date the walk sees for an assignment id (first dict match). -/
def pdueOfId (A : List Assignment) (aid : Nat) : Option Datetime :=
  match A.find? (fun a => a.id == aid) with
  | some a => parsedDue a
  | none => none

/-- The datetime a single walked submission folds into the entry of the
given student: the due date of the walked assignment when the submission
carries a strictly positive float score of that student. -/
def subContrib (A : List Assignment) (sid : String) (aid : Nat) (sub : Submission) :
    List Datetime :=
  match pdueOfId A aid with
  | none => []
  | some d =>
    if sub.score.isFloat = true ∧ 0 < sub.score.val ∧ toString sub.user_id = sid then [d]
    else []

/-- The datetimes with which one walked assignment advances the entry of
the given student. -/
def contribsOf (A : List Assignment) (subsFor : Nat → List Submission)
    (sid : String) (aid : Nat) : List Datetime :=
  match pdueOfId A aid with
  | none => []
  | some d => (subsFor aid).filterMap (fun sub =>
      if sub.score.isFloat = true ∧ 0 < sub.score.val ∧ toString sub.user_id = sid then
        some d
      else none)

/-- The submitted_at instant a single submission contributes for a given
student in the last_submission walk. -/
def lsContrib (sid : String) (sub : Submission) : List Datetime :=
  match parsedSub sub with
  | none => []
  | some t => if toString sub.user_id = sid then [t] else []

/-- Concrete snapshots at which the claims are instantiated or refuted. -/
def snapC1 : Snapshot :=
  ⟨[⟨10, some "2024-01-01T00:00:00Z".data⟩, ⟨11, some "2024-02-01T00:00:00Z".data⟩],
    ["1"],
    fun aid => if aid = 11
      then [⟨999, .float 5, false, some "2024-03-01T00:00:00Z".data⟩] else []⟩

/-- A course whose only positive score of the student is integer typed. -/
def snapC5 : Snapshot :=
  ⟨[⟨1, some "2024-01-01T00:00:00Z".data⟩, ⟨2, some "2024-02-01T00:00:00Z".data⟩],
    ["7"],
    fun aid => if aid = 2 then [⟨7, .int 5, false, none⟩] else []⟩

/-- A second course with an integer typed positive score, for the
nonzero due date correctness claim. -/
def snapC3 : Snapshot :=
  ⟨[⟨1, some "2024-01-01T00:00:00Z".data⟩, ⟨2, some "2024-02-01T00:00:00Z".data⟩],
    ["9"],
    fun aid => if aid = 2 then [⟨9, .int 3, false, none⟩] else []⟩

/-- A course with a positive float score, used for witnesses. -/
def snapW : Snapshot :=
  ⟨[⟨1, some "2024-01-01T00:00:00Z".data⟩, ⟨2, some "2024-02-01T00:00:00Z".data⟩],
    ["5"],
    fun aid => if aid = 2
      then [⟨5, .float 4, false, some "2024-02-02T09:30:00Z".data⟩] else []⟩

/-- The datetimes the whole walk folds into the entry of the student. -/
def walkContribs (A : List Assignment) (subsFor : Nat → List Submission)
    (sid : String) (ids : List Nat) : List Datetime :=
  flatMapL (contribsOf A subsFor sid) ids

/-- The fold step of the last_submission walk on one student entry. -/
def lsMax (o : Option Datetime) (d : Datetime) : Option Datetime :=
  match o with
  | none => some d
  | some c => if dtLt c d then some d else some c

/-- Every due_at field of the course parses (no ValueError is raised). -/
def DueParses (A : List Assignment) : Prop :=
  ∀ a ∈ A, ∃ od, z_to_dt a.due_at = .ok od

/-- Every submitted_at field of the snapshot parses. -/
def SubParses (snap : Snapshot) : Prop :=
  ∀ a ∈ snap.assignments, ∀ sub ∈ snap.subsFor a.id, ∃ o, z_to_dt sub.submitted_at = .ok o

theorem listLtNat_irrefl (x : List Nat) : listLtNat x x = false := by
  induction x with
  | nil => rfl
  | cons a xs ih => simp [listLtNat, ih]

theorem listLtNat_asymm {x y : List Nat} (h : listLtNat x y = true) :
    listLtNat y x = false := by
  induction x generalizing y with
  | nil => simp [listLtNat] at h
  | cons a xs ih =>
    cases y with
    | nil => simp [listLtNat] at h
    | cons b ys =>
      by_cases hab : a = b
      · subst hab
        simp [listLtNat] at h ⊢
        exact ih h
      · simp [listLtNat, hab, Ne.symm hab] at h ⊢
        omega

theorem listLtNat_trans {x y z : List Nat} (h1 : listLtNat x y = true)
    (h2 : listLtNat y z = true) : listLtNat x z = true := by
  induction x generalizing y z with
  | nil => simp [listLtNat] at h1
  | cons a xs ih =>
    cases y with
    | nil => simp [listLtNat] at h1
    | cons b ys =>
      cases z with
      | nil => simp [listLtNat] at h2
      | cons c zs =>
        by_cases hab : a = b <;> by_cases hbc : b = c
        · subst hab; subst hbc
          simp [listLtNat] at h1 h2 ⊢
          exact ih h1 h2
        · subst hab
          simp [listLtNat, hbc] at h2 ⊢
          omega
        · subst hbc
          simp [listLtNat, hab] at h1 ⊢
          omega
        · simp [listLtNat, hab, hbc] at h1 h2
          have : a ≠ c := by omega
          simp [listLtNat, this]
          omega

theorem listLtNat_conn {x y : List Nat} (hlen : x.length = y.length)
    (h1 : listLtNat x y = false) (h2 : listLtNat y x = false) : x = y := by
  induction x generalizing y with
  | nil => cases y with
    | nil => rfl
    | cons b ys => simp at hlen
  | cons a xs ih =>
    cases y with
    | nil => simp at hlen
    | cons b ys =>
      by_cases hab : a = b
      · subst hab
        simp [listLtNat] at h1 h2
        simp at hlen
        rw [ih hlen h1 h2]
      · simp [listLtNat, hab, Ne.symm hab] at h1 h2
        omega

theorem dtKey_length (a : Datetime) : a.key.length = 6 := rfl

theorem dtKey_inj {a b : Datetime} (h : a.key = b.key) : a = b := by
  cases a; cases b
  simp [Datetime.key] at h
  obtain ⟨h1, h2, h3, h4, h5, h6⟩ := h
  simp [h1, h2, h3, h4, h5, h6]

theorem dtLt_irrefl (a : Datetime) : dtLt a a = false := listLtNat_irrefl _

theorem dtLt_asymm {a b : Datetime} (h : dtLt a b = true) : dtLt b a = false :=
  listLtNat_asymm h

theorem dtLt_trans {a b c : Datetime} (h1 : dtLt a b = true) (h2 : dtLt b c = true) :
    dtLt a c = true := listLtNat_trans h1 h2

theorem dtEq_of_not_lt {a b : Datetime} (h1 : dtLt a b = false) (h2 : dtLt b a = false) :
    a = b := dtKey_inj (listLtNat_conn (by simp [dtKey_length]) h1 h2)

theorem dtLe_refl (a : Datetime) : dtLe a a := dtLt_irrefl a

theorem dtLe_of_lt {a b : Datetime} (h : dtLt a b = true) : dtLe a b := dtLt_asymm h

theorem dtLe_trans {a b c : Datetime} (h1 : dtLe a b) (h2 : dtLe b c) : dtLe a c := by
  unfold dtLe at h1 h2 ⊢
  by_cases h : dtLt c a = true
  · exfalso
    by_cases hbc : dtLt b c = true
    · exact absurd (dtLt_trans hbc h) (by simp [h1])
    · have heq := dtEq_of_not_lt (by simpa using hbc) h2
      subst heq
      exact absurd h (by simp [h1])
  · simpa using h

theorem dtLe_antisymm {a b : Datetime} (h1 : dtLe a b) (h2 : dtLe b a) : a = b :=
  dtEq_of_not_lt h2 h1

theorem dtLe_total (a b : Datetime) : dtLe a b ∨ dtLe b a := by
  by_cases h : dtLt a b = true
  · exact Or.inl (dtLt_asymm h)
  · exact Or.inr (by simpa [dtLe] using h)

theorem dtLe_maxD_left (a b : Datetime) : dtLe a (maxD a b) := by
  unfold maxD
  by_cases h : dtLt a b = true
  · simp [h]; exact dtLt_asymm h
  · simp [h]; exact dtLe_refl a

theorem dtLe_maxD_right (a b : Datetime) : dtLe b (maxD a b) := by
  unfold maxD
  by_cases h : dtLt a b = true
  · simp [h]; exact dtLe_refl b
  · simp [h]; simpa [dtLe] using h

theorem maxD_cases (a b : Datetime) : maxD a b = a ∨ maxD a b = b := by
  unfold maxD
  by_cases h : dtLt a b = true <;> simp [h]

theorem maxD_eq_right {a b : Datetime} (h : dtLe a b) : maxD a b = b := by
  unfold maxD
  by_cases hlt : dtLt a b = true
  · simp [hlt]
  · simp [hlt]
    exact dtLe_antisymm h (by simpa [dtLe] using hlt)

theorem foldlMax_le_init (c : Datetime) (l : List Datetime) :
    dtLe c (List.foldl maxD c l) := by
  induction l generalizing c with
  | nil => exact dtLe_refl c
  | cons x xs ih =>
    rw [List.foldl_cons]
    exact dtLe_trans (dtLe_maxD_left c x) (ih (maxD c x))

theorem foldlMax_le_mem {x : Datetime} {l : List Datetime} (c : Datetime) (h : x ∈ l) :
    dtLe x (List.foldl maxD c l) := by
  induction l generalizing c with
  | nil => cases h
  | cons y ys ih =>
    rw [List.foldl_cons]
    rcases List.mem_cons.mp h with rfl | hmem
    · exact dtLe_trans (dtLe_maxD_right c x) (foldlMax_le_init _ _)
    · exact ih (maxD c y) hmem

theorem foldlMax_mem (c : Datetime) (l : List Datetime) :
    List.foldl maxD c l = c ∨ List.foldl maxD c l ∈ l := by
  induction l generalizing c with
  | nil => exact Or.inl rfl
  | cons x xs ih =>
    rw [List.foldl_cons]
    rcases ih (maxD c x) with h | h
    · rcases maxD_cases c x with hc | hc
      · exact Or.inl (h.trans hc)
      · exact Or.inr (by rw [h, hc]; exact List.mem_cons_self x xs)
    · exact Or.inr (List.mem_cons_of_mem x h)

theorem foldlMax_congr (c : Datetime) (l1 l2 : List Datetime)
    (h : ∀ x, x ∈ l1 ↔ x ∈ l2) : List.foldl maxD c l1 = List.foldl maxD c l2 := by
  apply dtLe_antisymm
  · rcases foldlMax_mem c l1 with he | he
    · rw [he]; exact foldlMax_le_init c l2
    · rw [h _] at he
      exact foldlMax_le_mem c he
  · rcases foldlMax_mem c l2 with he | he
    · rw [he]; exact foldlMax_le_init c l1
    · rw [← h _] at he
      exact foldlMax_le_mem c he

theorem foldlMax_cons_of_le {c x : Datetime} (l : List Datetime) (h : dtLe c x) :
    List.foldl maxD c (x :: l) = List.foldl maxD x l := by
  rw [List.foldl_cons, maxD_eq_right h]

theorem dtLe_minD_left (a b : Datetime) : dtLe (minD a b) a := by
  unfold minD
  by_cases h : dtLt b a = true
  · simp [h]; exact dtLt_asymm h
  · simp [h]; exact dtLe_refl a

theorem dtLe_minD_right (a b : Datetime) : dtLe (minD a b) b := by
  unfold minD
  by_cases h : dtLt b a = true
  · simp [h]; exact dtLe_refl b
  · simp [h]; simpa [dtLe] using h

theorem minD_cases (a b : Datetime) : minD a b = a ∨ minD a b = b := by
  unfold minD
  by_cases h : dtLt b a = true <;> simp [h]

theorem foldlMin_le_init (c : Datetime) (l : List Datetime) :
    dtLe (List.foldl minD c l) c := by
  induction l generalizing c with
  | nil => exact dtLe_refl c
  | cons x xs ih =>
    rw [List.foldl_cons]
    exact dtLe_trans (ih (minD c x)) (dtLe_minD_left c x)

theorem foldlMin_le_mem {x : Datetime} {l : List Datetime} (c : Datetime) (h : x ∈ l) :
    dtLe (List.foldl minD c l) x := by
  induction l generalizing c with
  | nil => cases h
  | cons y ys ih =>
    rw [List.foldl_cons]
    rcases List.mem_cons.mp h with rfl | hmem
    · exact dtLe_trans (foldlMin_le_init _ _) (dtLe_minD_right c x)
    · exact ih (minD c y) hmem

theorem foldlMin_mem (c : Datetime) (l : List Datetime) :
    List.foldl minD c l = c ∨ List.foldl minD c l ∈ l := by
  induction l generalizing c with
  | nil => exact Or.inl rfl
  | cons x xs ih =>
    rw [List.foldl_cons]
    rcases ih (minD c x) with h | h
    · rcases minD_cases c x with hc | hc
      · exact Or.inl (h.trans hc)
      · exact Or.inr (by rw [h, hc]; exact List.mem_cons_self x xs)
    · exact Or.inr (List.mem_cons_of_mem x h)

theorem foldl_lsMax_some (c : Datetime) (l : List Datetime) :
    List.foldl lsMax (some c) l = some (List.foldl maxD c l) := by
  induction l generalizing c with
  | nil => rfl
  | cons x xs ih =>
    rw [List.foldl_cons, List.foldl_cons]
    have : lsMax (some c) x = some (maxD c x) := by
      unfold lsMax maxD
      by_cases h : dtLt c x = true <;> simp [h]
    rw [this, ih]

theorem foldl_lsMax_none (l : List Datetime) :
    List.foldl lsMax none l = listMaxD l := by
  cases l with
  | nil => rfl
  | cons x xs =>
    rw [List.foldl_cons]
    show List.foldl lsMax (some x) xs = _
    rw [foldl_lsMax_some, listMaxD]

theorem isDig_digitChar {k : Nat} (h : k ≤ 9) : isDig (digitChar k) = true := by
  interval_cases k <;> decide

theorem digitVal_digitChar {k : Nat} (h : k ≤ 9) : digitVal (digitChar k) = k := by
  interval_cases k <;> decide

theorem parse4_pad4 {y : Nat} (hy : y ≤ 9999) (rest : Str) :
    parse4 (pad4 y ++ rest) = some (y, rest) := by
  have e1 : y / 1000 ≤ 9 := by omega
  have e2 : y / 100 % 10 ≤ 9 := by omega
  have e3 : y / 10 % 10 ≤ 9 := by omega
  have e4 : y % 10 ≤ 9 := by omega
  show parse4 (digitChar (y / 1000) :: digitChar (y / 100 % 10) ::
    digitChar (y / 10 % 10) :: digitChar (y % 10) :: rest) = some (y, rest)
  rw [parse4]
  rw [isDig_digitChar e1, isDig_digitChar e2, isDig_digitChar e3, isDig_digitChar e4]
  simp only [Bool.and_self, if_true]
  rw [digitVal_digitChar e1, digitVal_digitChar e2, digitVal_digitChar e3,
    digitVal_digitChar e4]
  have : 1000 * (y / 1000) + 100 * (y / 100 % 10) + 10 * (y / 10 % 10) + y % 10 = y := by
    omega
  rw [this]

theorem parse2or1_pad2 {lo2 hi2 lo1 v : Nat} (hlo : lo2 ≤ v) (hhi : v ≤ hi2)
    (hv : v ≤ 99) (c : Char) (rest : Str) :
    parse2or1 lo2 hi2 lo1 (pad2 v ++ c :: rest) = some (v, c :: rest) := by
  have e1 : v / 10 ≤ 9 := by omega
  have e2 : v % 10 ≤ 9 := by omega
  show parse2or1 lo2 hi2 lo1 (digitChar (v / 10) :: digitChar (v % 10) :: c :: rest) =
    some (v, c :: rest)
  rw [parse2or1]
  rw [isDig_digitChar e1, isDig_digitChar e2]
  simp only [Bool.and_self, if_true]
  rw [digitVal_digitChar e1, digitVal_digitChar e2]
  have hval : 10 * (v / 10) + v % 10 = v := by omega
  rw [hval]
  simp [hlo, hhi]

theorem daysInMonth_le_31 (y m : Nat) : daysInMonth y m ≤ 31 := by
  unfold daysInMonth
  split_ifs <;> omega

theorem parseLit_cons (c : Char) (rest : Str) : parseLit c (c :: rest) = some rest := by
  simp [parseLit]

theorem parseLitCI_left (a b : Char) (rest : Str) : parseLitCI a b (a :: rest) = some rest := by
  simp [parseLitCI]

theorem strptime_fmt {d : Datetime} (h : ValidRange d) : strptimeTS (fmtD d) = some d := by
  obtain ⟨y, mo, dd, hh, mi, se⟩ := d
  obtain ⟨h1, h2, h3, h4, h5, h6, h7, h8, h9⟩ := h
  simp only at h1 h2 h3 h4 h5 h6 h7 h8 h9
  have hdm : dd ≤ 31 := le_trans h6 (daysInMonth_le_31 y mo)
  rw [strptimeTS]
  rw [show fmtD ⟨y, mo, dd, hh, mi, se⟩ = pad4 y ++ '-' :: (pad2 mo ++ '-' ::
    (pad2 dd ++ 'T' :: (pad2 hh ++ ':' :: (pad2 mi ++ ':' :: (pad2 se ++ ['Z'])))))
    from rfl]
  rw [parse4_pad4 h2]
  simp only [Option.bind_eq_bind, Option.some_bind]
  rw [parseLit_cons]
  simp only [Option.some_bind]
  rw [parse2or1_pad2 h3 h4 (by omega)]
  simp only [Option.some_bind]
  rw [parseLit_cons]
  simp only [Option.some_bind]
  rw [parse2or1_pad2 h5 hdm (by omega)]
  simp only [Option.some_bind]
  rw [parseLitCI_left]
  simp only [Option.some_bind]
  rw [parse2or1_pad2 (Nat.zero_le hh) h7 (by omega)]
  simp only [Option.some_bind]
  rw [parseLit_cons]
  simp only [Option.some_bind]
  rw [parse2or1_pad2 (Nat.zero_le mi) h8 (by omega)]
  simp only [Option.some_bind]
  rw [parseLit_cons]
  simp only [Option.some_bind]
  rw [show pad2 se ++ ['Z'] = pad2 se ++ 'Z' :: [] from rfl]
  rw [parse2or1_pad2 (Nat.zero_le se) h9 (by omega)]
  simp only [Option.some_bind]
  rw [parseLitCI_left]
  simp only [Option.some_bind]
  simp [h1, h6]

theorem z_to_dt_fmt {d : Datetime} (h : ValidRange d) :
    z_to_dt (some (fmtD d)) = .ok (some d) := by
  rw [z_to_dt, strptime_fmt h]

theorem startsWith_exists {pat s : Str} (h : startsWith pat s = true) :
    ∃ t, s = pat ++ t := by
  induction pat generalizing s with
  | nil => exact ⟨s, rfl⟩
  | cons a as ih =>
    cases s with
    | nil => simp [startsWith] at h
    | cons b bs =>
      simp only [startsWith, Bool.and_eq_true, beq_iff_eq] at h
      obtain ⟨rfl, h2⟩ := h
      obtain ⟨t, rfl⟩ := ih h2
      exact ⟨t, rfl⟩

theorem startsWith_append (pat t : Str) : startsWith pat (pat ++ t) = true := by
  induction pat with
  | nil => rfl
  | cons a as ih => simp [startsWith, ih]

theorem pyContains_nil (s : Str) : pyContains [] s = true := by
  cases s with
  | nil => rfl
  | cons c rest =>
    rw [pyContains]
    rw [show startsWith [] (c :: rest) = true from rfl]
    rfl

theorem pyContains_of_append (pat pre suf : Str) :
    pyContains pat (pre ++ (pat ++ suf)) = true := by
  induction pre with
  | nil =>
    cases pat with
    | nil => exact pyContains_nil _
    | cons a as =>
      show pyContains (a :: as) (a :: (as ++ suf)) = true
      rw [pyContains]
      rw [show a :: (as ++ suf) = (a :: as) ++ suf from rfl, startsWith_append]
      rfl
  | cons c pre' ih =>
    show pyContains pat (c :: (pre' ++ (pat ++ suf))) = true
    cases pat with
    | nil => exact pyContains_nil _
    | cons a as =>
      rw [pyContains]
      rw [ih]
      simp

theorem pyContains_exists {pat s : Str} (h : pyContains pat s = true) :
    ∃ p q, s = p ++ (pat ++ q) := by
  induction s with
  | nil =>
    simp only [pyContains, beq_iff_eq] at h
    exact ⟨[], [], by simp [h]⟩
  | cons c rest ih =>
    rw [pyContains, Bool.or_eq_true] at h
    rcases h with h | h
    · obtain ⟨t, ht⟩ := startsWith_exists h
      exact ⟨[], t, by simp [ht]⟩
    · obtain ⟨p, q, hpq⟩ := ih h
      exact ⟨c :: p, q, by simp [hpq]⟩

theorem hasPair_of_split (a b : Char) (p q : Str) :
    hasPair a b (p ++ a :: b :: q) = true := by
  induction p with
  | nil => simp [hasPair]
  | cons x xs ih =>
    show hasPair a b (x :: (xs ++ a :: b :: q)) = true
    cases hxs : xs ++ a :: b :: q with
    | nil => simp at hxs
    | cons y rest =>
      rw [hasPair, Bool.or_eq_true]
      right
      rw [← hxs, ih]

theorem hasPair_append_clean {a : Char} (b : Char) {pre : Str} (t : Str)
    (h : ∀ c ∈ pre, c ≠ a) : hasPair a b (pre ++ t) = hasPair a b t := by
  induction pre with
  | nil => rfl
  | cons x xs ih =>
    have hx : x ≠ a := h x (List.mem_cons_self x xs)
    have hxs : ∀ c ∈ xs, c ≠ a := fun c hc => h c (List.mem_cons_of_mem x hc)
    show hasPair a b (x :: (xs ++ t)) = hasPair a b t
    cases he : xs ++ t with
    | nil =>
      obtain ⟨h1, h2⟩ := List.append_eq_nil.mp he
      subst h2
      simp [hasPair]
    | cons y rest =>
      rw [hasPair]
      have : (x == a) = false := by simp [hx]
      rw [this]
      simp only [Bool.false_and, Bool.false_or]
      rw [← he, ih hxs]

theorem pyContains_false_of_hasPair {a b : Char} {pat s p1 p2 : Str}
    (hpat : pat = p1 ++ a :: b :: p2) (hs : hasPair a b s = false) :
    pyContains pat s = false := by
  cases hpc : pyContains pat s with
  | false => rfl
  | true =>
    exfalso
    obtain ⟨p, q, rfl⟩ := pyContains_exists hpc
    rw [hpat] at hs
    rw [show p ++ ((p1 ++ a :: b :: p2) ++ q) = (p ++ p1) ++ a :: b :: (p2 ++ q) by
      simp [List.append_assoc]] at hs
    rw [hasPair_of_split] at hs
    cases hs

theorem pySplit_ne_nil (sep : Char) (s : Str) : pySplit sep s ≠ [] := by
  cases s with
  | nil => simp [pySplit]
  | cons c rest =>
    rw [pySplit]
    cases h : pySplit sep rest with
    | nil => simp
    | cons x t =>
      by_cases hc : c = sep <;> simp [hc]

theorem pySplit_no_sep {sep : Char} {s : Str} (h : ∀ c ∈ s, c ≠ sep) :
    pySplit sep s = [s] := by
  induction s with
  | nil => rfl
  | cons c rest ih =>
    have hc : c ≠ sep := h c (List.mem_cons_self c rest)
    have hr : ∀ x ∈ rest, x ≠ sep := fun x hx => h x (List.mem_cons_of_mem c hx)
    rw [pySplit, ih hr]
    simp [hc]

theorem pySplit_append {sep : Char} {p : Str} (t : Str) (h : ∀ c ∈ p, c ≠ sep) :
    pySplit sep (p ++ sep :: t) = p :: pySplit sep t := by
  induction p with
  | nil =>
    show pySplit sep (sep :: t) = [] :: pySplit sep t
    rw [pySplit]
    cases ht : pySplit sep t with
    | nil => exact absurd ht (pySplit_ne_nil sep t)
    | cons x r => simp
  | cons c p' ih =>
    have hc : c ≠ sep := h c (List.mem_cons_self c p')
    have hp : ∀ x ∈ p', x ≠ sep := fun x hx => h x (List.mem_cons_of_mem c hx)
    show pySplit sep (c :: (p' ++ sep :: t)) = (c :: p') :: pySplit sep t
    rw [pySplit, ih hp]
    simp [hc]

theorem dropWhile_all_false {p : Char → Bool} {l : Str} (h : ∀ c ∈ l, p c = false) :
    l.dropWhile p = l := by
  cases l with
  | nil => rfl
  | cons x xs =>
    have : ¬ p x = true := by simp [h x (List.mem_cons_self x xs)]
    exact List.dropWhile_cons_of_neg this

theorem validUrl_spec {u : Str} (h : validUrl u = true) :
    u ≠ [] ∧ ∀ c ∈ u, c ≠ ',' ∧ c ≠ ';' ∧ c ≠ '"' ∧ c ≠ '<' ∧ c ≠ '>' := by
  rw [validUrl, Bool.and_eq_true] at h
  obtain ⟨h1, h2⟩ := h
  constructor
  · simp only [Bool.not_eq_true'] at h1
    exact List.isEmpty_eq_false_iff_exists_mem.mp h1 |>.elim fun x hx => by
      intro he; rw [he] at hx; cases hx
  · intro c hc
    have := List.all_eq_true.mp h2 c hc
    simp only [Bool.not_or, Bool.and_eq_true, Bool.not_eq_true', beq_eq_false_iff_ne] at this
    exact ⟨this.1.1.1.1, this.1.1.1.2, this.1.1.2, this.1.2, this.2⟩

theorem extract_link_mkPiece {u : Str} (rel : Str) (hu : validUrl u = true) :
    extract_link (mkPiece u rel) = u := by
  obtain ⟨hne, hch⟩ := validUrl_spec hu
  obtain ⟨x, u', rfl⟩ : ∃ x u', u = x :: u' := by
    cases u with
    | nil => exact absurd rfl hne
    | cons x u' => exact ⟨x, u', rfl⟩
  have hsplit : pySplit ';' (mkPiece (x :: u') rel) =
      ('<' :: x :: u' ++ ['>']) :: pySplit ';' (" rel=\"".data ++ rel ++ ['"']) := by
    rw [show mkPiece (x :: u') rel =
      ('<' :: x :: u' ++ ['>']) ++ ';' :: (" rel=\"".data ++ rel ++ ['"']) by
        simp [mkPiece]]
    apply pySplit_append
    intro c hc
    rcases List.mem_cons.mp hc with rfl | hc2
    · decide
    · rcases List.mem_append.mp hc2 with hc3 | hc4
      · exact (hch c hc3).2.1
      · rcases List.mem_singleton.mp hc4 with rfl
        decide
  rw [extract_link, hsplit]
  simp only [List.headD_cons]
  rw [pyStrip]
  have hx : x ∉ ['<', '>'] := by
    have := hch x (List.mem_cons_self x u')
    simp [this.2.2.2.1, this.2.2.2.2]
  rw [show ('<' :: x :: u' ++ ['>']).dropWhile (fun c => decide (c ∈ ['<', '>'])) =
      (x :: u' ++ ['>']).dropWhile (fun c => decide (c ∈ ['<', '>'])) from
    List.dropWhile_cons_of_pos (by decide)]
  rw [show (x :: u' ++ ['>']).dropWhile (fun c => decide (c ∈ ['<', '>'])) =
      x :: u' ++ ['>'] from List.dropWhile_cons_of_neg (by simp [hx])]
  rw [show (x :: u' ++ ['>']).reverse = '>' :: (x :: u').reverse by simp]
  rw [List.dropWhile_cons_of_pos (by decide)]
  rw [dropWhile_all_false (fun c hc => by
    have hmem : c ∈ x :: u' := List.mem_reverse.mp hc
    have := hch c hmem
    simp [this.2.2.2.1, this.2.2.2.2])]
  simp

theorem mkPiece_decomp (u rel : Str) :
    mkPiece u rel = ('<' :: u ++ ['>', ';', ' ']) ++ ("rel=\"".data ++ rel ++ ['"'] ++ []) := by
  rw [mkPiece]
  rw [show (">; rel=\"".data : Str) = ['>', ';', ' '] ++ "rel=\"".data from by decide]
  simp [List.append_assoc]

theorem pc_cur_cur (u : Str) : pyContains relCurrentPat (mkPiece u "current".data) = true := by
  rw [show relCurrentPat = "rel=\"".data ++ "current".data ++ ['"'] from by decide]
  rw [mkPiece_decomp u "current".data]
  exact pyContains_of_append _ _ _

theorem pc_nxt_nxt (u : Str) : pyContains relNextPat (mkPiece u "next".data) = true := by
  rw [show relNextPat = "rel=\"".data ++ "next".data ++ ['"'] from by decide]
  rw [mkPiece_decomp u "next".data]
  exact pyContains_of_append _ _ _

theorem pc_lst_lst (u : Str) : pyContains relLastPat (mkPiece u "last".data) = true := by
  rw [show relLastPat = "rel=\"".data ++ "last".data ++ ['"'] from by decide]
  rw [mkPiece_decomp u "last".data]
  exact pyContains_of_append _ _ _

theorem hasPair_mkPiece {u : Str} (hu : validUrl u = true) (b : Char) (rel : Str)
    (hrel : hasPair '"' b (">; rel=\"".data ++ rel ++ ['"']) = false) :
    hasPair '"' b (mkPiece u rel) = false := by
  obtain ⟨hne, hch⟩ := validUrl_spec hu
  rw [show mkPiece u rel = ('<' :: u) ++ (">; rel=\"".data ++ rel ++ ['"']) from rfl]
  rw [hasPair_append_clean b _ (fun c hc => by
    rcases List.mem_cons.mp hc with rfl | hc2
    · decide
    · exact (hch c hc2).2.2.1)]
  exact hrel

theorem pc_cur_nxt {u : Str} (hu : validUrl u = true) :
    pyContains relCurrentPat (mkPiece u "next".data) = false :=
  @pyContains_false_of_hasPair '"' 'c' _ _ "rel=".data
    "urrent\"".data (by decide) (hasPair_mkPiece hu 'c' _ (by decide))

theorem pc_cur_lst {u : Str} (hu : validUrl u = true) :
    pyContains relCurrentPat (mkPiece u "last".data) = false :=
  @pyContains_false_of_hasPair '"' 'c' _ _ "rel=".data
    "urrent\"".data (by decide) (hasPair_mkPiece hu 'c' _ (by decide))

theorem pc_nxt_cur {u : Str} (hu : validUrl u = true) :
    pyContains relNextPat (mkPiece u "current".data) = false :=
  @pyContains_false_of_hasPair '"' 'n' _ _ "rel=".data
    "ext\"".data (by decide) (hasPair_mkPiece hu 'n' _ (by decide))

theorem pc_nxt_lst {u : Str} (hu : validUrl u = true) :
    pyContains relNextPat (mkPiece u "last".data) = false :=
  @pyContains_false_of_hasPair '"' 'n' _ _ "rel=".data
    "ext\"".data (by decide) (hasPair_mkPiece hu 'n' _ (by decide))

theorem pc_lst_cur {u : Str} (hu : validUrl u = true) :
    pyContains relLastPat (mkPiece u "current".data) = false :=
  @pyContains_false_of_hasPair '"' 'l' _ _ "rel=".data
    "ast\"".data (by decide) (hasPair_mkPiece hu 'l' _ (by decide))

theorem pc_lst_nxt {u : Str} (hu : validUrl u = true) :
    pyContains relLastPat (mkPiece u "next".data) = false :=
  @pyContains_false_of_hasPair '"' 'l' _ _ "rel=".data
    "ast\"".data (by decide) (hasPair_mkPiece hu 'l' _ (by decide))

theorem comma_not_mem_mkPiece {u : Str} (hu : validUrl u = true) {rel : Str}
    (hrel : ∀ c ∈ (">; rel=\"".data ++ rel ++ ['"'] : Str), c ≠ ',') :
    ∀ c ∈ mkPiece u rel, c ≠ ',' := by
  obtain ⟨hne, hch⟩ := validUrl_spec hu
  intro c hc
  rw [show mkPiece u rel = ('<' :: u) ++ (">; rel=\"".data ++ rel ++ ['"']) from rfl] at hc
  rcases List.mem_append.mp hc with hc1 | hc2
  · rcases List.mem_cons.mp hc1 with rfl | hc3
    · decide
    · exact (hch c hc3).1
  · exact hrel c hc2

theorem pySplit_mkHeader3 {c n l : Str} (hc : validUrl c = true) (hn : validUrl n = true)
    (hl : validUrl l = true) :
    pySplit ',' (mkHeader3 c n l) =
      [mkPiece c "current".data, mkPiece n "next".data, mkPiece l "last".data] := by
  rw [mkHeader3]
  rw [pySplit_append _ (comma_not_mem_mkPiece hc (by decide))]
  rw [pySplit_append _ (comma_not_mem_mkPiece hn (by decide))]
  rw [pySplit_no_sep (comma_not_mem_mkPiece hl (by decide))]

theorem get_navigation_mkHeader3 {c n l : Str} (hc : validUrl c = true)
    (hn : validUrl n = true) (hl : validUrl l = true) :
    get_navigation (pySplit ',' (mkHeader3 c n l)) = (c, n, l) := by
  rw [pySplit_mkHeader3 hc hn hl]
  rw [get_navigation, navFold, navFold, navFold, navFold]
  rw [pc_cur_cur, pc_nxt_cur hc, pc_lst_cur hc]
  rw [pc_cur_nxt hn, pc_nxt_nxt, pc_lst_nxt hn]
  rw [pc_cur_lst hl, pc_nxt_lst hl, pc_lst_lst]
  rw [extract_link_mkPiece _ hc, extract_link_mkPiece _ hn, extract_link_mkPiece _ hl]
  simp

theorem getListAux_stop {α : Type} {server : Str → Option (Resp α)} {url lh : Str}
    {body : List α} (fuel : Nat) (acc : List α) (trace : List Str)
    (h : server url = some ⟨some lh, body⟩)
    (hnav : (get_navigation (pySplit ',' lh)).1 = (get_navigation (pySplit ',' lh)).2.2) :
    getListAux server (fuel + 1) url acc trace = .ok (acc ++ body, trace ++ [url]) := by
  simp only [getListAux, h]
  rw [if_pos hnav]

theorem getListAux_go {α : Type} {server : Str → Option (Resp α)} {url lh : Str}
    {body : List α} (fuel : Nat) (acc : List α) (trace : List Str)
    (h : server url = some ⟨some lh, body⟩)
    (hnav : ¬ (get_navigation (pySplit ',' lh)).1 = (get_navigation (pySplit ',' lh)).2.2) :
    getListAux server (fuel + 1) url acc trace =
      getListAux server fuel (get_navigation (pySplit ',' lh)).2.1
        (acc ++ body) (trace ++ [url]) := by
  simp only [getListAux, h]
  rw [if_neg hnav]

theorem getListAux_keyError {α : Type} {server : Str → Option (Resp α)} {url : Str}
    {body : List α} (fuel : Nat) (acc : List α) (trace : List Str)
    (h : server url = some ⟨none, body⟩) :
    getListAux server (fuel + 1) url acc trace = .error .keyError := by
  simp only [getListAux, h]

theorem chainResp_lookup {α : Type} (L : Str) (pre rest : List (Str × List α))
    (u : Str) (recs : List α)
    (hnd : ((pre ++ (u, recs) :: rest).map Prod.fst).Nodup) :
    chainResp L (pre ++ (u, recs) :: rest) u =
      some ⟨some (mkHeader3 u (nextUrlOf u rest) L), recs⟩ := by
  induction pre with
  | nil => simp [chainResp]
  | cons p pre' ih =>
    obtain ⟨v, r⟩ := p
    simp only [List.cons_append, List.map_cons, List.nodup_cons] at hnd
    have hvu : ¬ u = v := by
      intro he
      apply hnd.1
      rw [← he]
      simp
    show chainResp L ((v, r) :: (pre' ++ (u, recs) :: rest)) u = _
    rw [chainResp, if_neg hvu]
    exact ih hnd.2

theorem chain_aux {α : Type} (chain : List (Str × List α))
    (hval : ∀ p ∈ chain, validUrl p.1 = true)
    (hnd : (chain.map Prod.fst).Nodup) :
    ∀ (suffix : List (Str × List α)), ∀ (pre : List (Str × List α)),
      chain = pre ++ suffix →
      ∀ (u : Str) (recs : List α) (rest : List (Str × List α)),
        suffix = (u, recs) :: rest →
      ∀ (fuel : Nat) (acc : List α) (trace : List Str), suffix.length ≤ fuel →
      getListAux (chainServer chain) fuel u acc trace =
        .ok (acc ++ concatAll (suffix.map Prod.snd), trace ++ suffix.map Prod.fst) := by
  intro suffix
  induction suffix with
  | nil =>
    intro pre h u recs rest hs
    cases hs
  | cons hd tl ih =>
    intro pre hchain u recs rest hs fuel acc trace hfuel
    injection hs with h1 h2
    subst h1
    subst h2
    obtain ⟨f, rfl⟩ : ∃ f, fuel = f + 1 := by
      cases fuel with
      | zero => simp at hfuel
      | succ f => exact ⟨f, rfl⟩
    subst hchain
    have humem : (u, recs) ∈ pre ++ (u, recs) :: tl := by simp
    have hvu : validUrl u = true := hval (u, recs) humem
    have hserv : chainServer (pre ++ (u, recs) :: tl) u =
        some ⟨some (mkHeader3 u (nextUrlOf u tl)
          (lastUrlOf (pre ++ (u, recs) :: tl))), recs⟩ := by
      rw [chainServer]
      exact chainResp_lookup _ pre tl u recs hnd
    cases tl with
    | nil =>
      have hLu : lastUrlOf (pre ++ [(u, recs)]) = u := by
        rw [lastUrlOf, List.getLast?_concat]
      rw [hLu] at hserv
      rw [show nextUrlOf u ([] : List (Str × List α)) = u from rfl] at hserv
      rw [getListAux_stop f acc trace hserv
        (by rw [get_navigation_mkHeader3 hvu hvu hvu])]
      simp [concatAll]
    | cons nx rest2 =>
      obtain ⟨u2, r2⟩ := nx
      obtain ⟨lp, hlp⟩ : ∃ lp, ((u2, r2) :: rest2).getLast? = some lp := by
        cases hgl : ((u2, r2) :: rest2).getLast? with
        | none => simp at hgl
        | some lp => exact ⟨lp, rfl⟩
      have hlast : lastUrlOf (pre ++ (u, recs) :: (u2, r2) :: rest2) = lp.1 := by
        rw [lastUrlOf, List.getLast?_append_cons, List.getLast?_cons_cons, hlp]
      have hlpmem : lp ∈ (u2, r2) :: rest2 := List.mem_of_getLast?_eq_some hlp
      have hlpch : lp ∈ pre ++ (u, recs) :: (u2, r2) :: rest2 :=
        List.mem_append_right _ (List.mem_cons_of_mem _ hlpmem)
      have hvL : validUrl lp.1 = true := hval lp hlpch
      have hvu2 : validUrl u2 = true := by
        apply hval (u2, r2)
        exact List.mem_append_right _ (List.mem_cons_of_mem _ (List.mem_cons_self _ _))
      have huL : ¬ u = lp.1 := by
        intro he
        have hmap : ((pre ++ (u, recs) :: (u2, r2) :: rest2).map Prod.fst) =
            pre.map Prod.fst ++ u :: ((u2, r2) :: rest2).map Prod.fst := by
          simp
        rw [hmap] at hnd
        have h2 := (List.Nodup.of_append_right hnd)
        rw [List.nodup_cons] at h2
        apply h2.1
        rw [he]
        exact List.mem_map_of_mem Prod.fst hlpmem
      rw [hlast] at hserv
      rw [show nextUrlOf u ((u2, r2) :: rest2) = u2 from rfl] at hserv
      rw [getListAux_go f acc trace hserv
        (by rw [get_navigation_mkHeader3 hvu hvu2 hvL]; exact huL)]
      rw [show (get_navigation (pySplit ','
          (mkHeader3 u u2 lp.1))).2.1 = u2 by rw [get_navigation_mkHeader3 hvu hvu2 hvL]]
      rw [ih (pre ++ [(u, recs)]) (by simp)
        u2 r2 rest2 rfl f (acc ++ recs) (trace ++ [u])
        (by simp only [List.length_cons] at hfuel ⊢; omega)]
      simp [concatAll, List.append_assoc]

theorem navFold_no_cur_lst (pieces : List Str) (c n l : Str)
    (h : ∀ p ∈ pieces, pyContains relCurrentPat p = false ∧
      pyContains relLastPat p = false) :
    (navFold pieces c n l).1 = c ∧ (navFold pieces c n l).2.2 = l := by
  induction pieces generalizing c n l with
  | nil => exact ⟨rfl, rfl⟩
  | cons p ps ih =>
    have hp := h p (List.mem_cons_self p ps)
    have hps : ∀ q ∈ ps, pyContains relCurrentPat q = false ∧
        pyContains relLastPat q = false :=
      fun q hq => h q (List.mem_cons_of_mem p hq)
    rw [navFold, hp.1, hp.2]
    simp only [Bool.false_eq_true, if_false]
    exact ih _ _ _ hps

/-- C6: for every finite chain of pages in which only the current link
of the final page equals its last link, get_list terminates, returns the
records of all pages concatenated in page order, and issues one GET per
page, in page order (so exactly n requests); the single page chain is the
degenerate case in which current, next and last coincide. -/
theorem c6_theorem {α : Type} (chain : List (Str × List α)) (u0 : Str)
    (recs0 : List α) (rest : List (Str × List α))
    (hch : chain = (u0, recs0) :: rest)
    (hval : ∀ p ∈ chain, validUrl p.1 = true)
    (hnd : (chain.map Prod.fst).Nodup)
    (fuel : Nat) (hfuel : chain.length ≤ fuel) :
    get_list (chainServer chain) fuel u0 =
      .ok (concatAll (chain.map Prod.snd), chain.map Prod.fst) ∧
      (chain.map Prod.fst).length = chain.length := by
  constructor
  · rw [get_list]
    have h := chain_aux chain hval hnd chain [] (by simp) u0 recs0 rest hch fuel [] [] hfuel
    rw [h]
    simp
  · simp

/-- Witness for C6 at a concrete three page chain. -/
theorem c6_witness :
    get_list (chainServer c6chain) 3 "u1".data =
      .ok ([1, 2, 3, 4, 5], ["u1".data, "u2".data, "u3".data]) := by
  have h := c6_theorem c6chain "u1".data [1, 2]
    [("u2".data, [3]), ("u3".data, [4, 5])] rfl
    (by decide) (by decide) 3 (by decide)
  rw [h.1]
  decide

/-- C2 counterexample: a first page whose link header carries neither a
rel current nor a rel last entry makes get_list stop silently after that
page with an ok result, even though the server has a further page, rather
than failing with an error. -/
theorem c2_counterexample :
    get_list servC2 5 "A".data = .ok ([1, 2], ["A".data]) ∧
      servC2 "B".data = some ⟨some (mkHeader3 "B".data "B".data "B".data), [3, 4]⟩ := by
  constructor
  · decide
  · decide

/-- C2 amended: when the link header is absent, get_list raises the
KeyError of the header lookup; but when the header is present and merely
lacks both the rel current and rel last entries, both parsed links are
empty, the termination test succeeds, and get_list returns the records
accumulated so far as an ordinary result instead of failing. -/
theorem c2_theorem {α : Type} (server : Str → Option (Resp α)) (url : Str)
    (resp : Resp α) (fuel : Nat) (acc : List α) (trace : List Str)
    (h : server url = some resp) :
    (resp.linkHeader = none →
      getListAux server (fuel + 1) url acc trace = .error .keyError) ∧
    (∀ hdr, resp.linkHeader = some hdr →
      (∀ p ∈ pySplit ',' hdr, pyContains relCurrentPat p = false ∧
        pyContains relLastPat p = false) →
      getListAux server (fuel + 1) url acc trace =
        .ok (acc ++ resp.body, trace ++ [url])) := by
  obtain ⟨lh, body⟩ := resp
  constructor
  · intro hnone
    simp only at hnone
    subst hnone
    exact getListAux_keyError fuel acc trace h
  · intro hdr hsome hmal
    simp only at hsome
    subst hsome
    have hnav := navFold_no_cur_lst (pySplit ',' hdr) [] [] [] hmal
    exact getListAux_stop fuel acc trace h (by
      rw [get_navigation]
      rw [hnav.1, hnav.2])

/-- Witness for C2 at concrete servers: a missing header raises KeyError
and a header with neither current nor last returns a partial result. -/
theorem c2_witness :
    getListAux servN (0 + 1) "A".data ([] : List Nat) [] = .error .keyError ∧
    getListAux servC2 (4 + 1) "A".data ([] : List Nat) [] =
      .ok ([1, 2], ["A".data]) := by
  constructor
  · exact (c2_theorem servN "A".data ⟨none, [9]⟩ 0 [] [] (by decide)).1 rfl
  · exact (c2_theorem servC2 "A".data ⟨some "<B>; rel=\"next\"".data, [1, 2]⟩
      4 [] [] (by decide)).2 "<B>; rel=\"next\"".data rfl (by decide)

theorem ebind_ok {ε α β : Type} (a : α) (f : α → Except ε β) :
    (Except.ok a >>= f) = f a := rfl

theorem ebind_err {ε α β : Type} (e : ε) (f : α → Except ε β) :
    ((Except.error e : Except ε α) >>= f) = .error e := rfl

theorem epure {ε α : Type} (a : α) : (pure a : Except ε α) = .ok a := rfl

theorem pyYear_ge1000 {y : Nat} (h : 1000 ≤ y) : pyYear y = pad4 y := by
  rw [pyYear, if_pos h]

theorem fmtDPy_eq_fmtD {d : Datetime} (h : 1000 ≤ d.year) : fmtDPy d = fmtD d := by
  rw [fmtDPy, fmtD, pyYear_ge1000 h]

/-- C8 counterexample: the valid timestamp string 0005-01-01T00:00:00Z
parses to year 5, but CPython strftime renders that year without the
zero padding, so formatting the parse result gives 5-01-01T00:00:00Z,
which differs from the original string: the round trip fails on a valid
YYYY-MM-DDTHH:MM:SSZ string with a year below 1000. -/
theorem c8_counterexample :
    Except.map dt_to_z (z_to_dt (some "0005-01-01T00:00:00Z".data)) =
      .ok (some "5-01-01T00:00:00Z".data) ∧
    "5-01-01T00:00:00Z".data ≠ "0005-01-01T00:00:00Z".data := by
  exact ⟨by decide, by decide⟩

/-- C8 amended: parsing None yields None, and formatting the result of
parsing returns the original string on every valid padded timestamp
string whose year needs no leading zero (year at least 1000); for years
below 1000 CPython strftime drops the zero padding of the year, so the
round trip returns a shortened string instead of the original. -/
theorem c8_theorem :
    (∀ s : Str, (∃ d, ValidRange d ∧ 1000 ≤ d.year ∧ s = fmtD d) →
      Except.map dt_to_z (z_to_dt (some s)) = .ok (some s)) ∧
    z_to_dt none = .ok none := by
  constructor
  · rintro s ⟨d, hd, hy, rfl⟩
    rw [z_to_dt_fmt hd]
    show Except.ok (dt_to_z (some d)) = _
    rw [dt_to_z, fmtDPy_eq_fmtD hy]
  · rfl

/-- Witness for C8 at the concrete timestamp 2024-03-01T12:34:56Z. -/
theorem c8_witness :
    (∃ d, ValidRange d ∧ 1000 ≤ d.year ∧ "2024-03-01T12:34:56Z".data = fmtD d) ∧
    Except.map dt_to_z (z_to_dt (some "2024-03-01T12:34:56Z".data)) =
      .ok (some "2024-03-01T12:34:56Z".data) :=
  ⟨⟨⟨2024, 3, 1, 12, 34, 56⟩, by decide, by decide, by decide⟩,
   c8_theorem.1 "2024-03-01T12:34:56Z".data
     ⟨⟨2024, 3, 1, 12, 34, 56⟩, by decide, by decide, by decide⟩⟩

/-- C7 counterexample: the empty string does not map to None but raises a
FormatError, and the unpadded string 2024-1-05T00:00:00Z, which does not
match the fixed YYYY-MM-DDTHH:MM:SSZ shape, is parsed successfully. -/
theorem c7_counterexample :
    z_to_dt (some "".data) = .error .formatError ∧
    z_to_dt (some "2024-1-05T00:00:00Z".data) = .ok (some ⟨2024, 1, 5, 0, 0, 0⟩) := by
  exact ⟨by decide, by decide⟩

/-- C7 amended: None maps to None; every string of the strict padded
shape denoting a constructible date parses to the corresponding instant;
the empty string raises a FormatError instead of mapping to None; and the
parser is lenient beyond the strict shape (it accepts unpadded fields)
while still rejecting other malformed inputs. -/
theorem c7_theorem :
    z_to_dt none = .ok none ∧
    (∀ d, ValidRange d → z_to_dt (some (fmtD d)) = .ok (some d)) ∧
    z_to_dt (some "".data) = .error .formatError ∧
    z_to_dt (some "2024-1-05T00:00:00Z".data) = .ok (some ⟨2024, 1, 5, 0, 0, 0⟩) ∧
    z_to_dt (some "2024-01-05 00:00:00Z".data) = .error .formatError :=
  ⟨rfl, fun d hd => z_to_dt_fmt hd, by decide, by decide, by decide⟩

/-- Witness for C7 at the concrete instant 2023-12-31T23:59:59Z. -/
theorem c7_witness :
    ValidRange ⟨2023, 12, 31, 23, 59, 59⟩ ∧
    z_to_dt (some (fmtD ⟨2023, 12, 31, 23, 59, 59⟩)) =
      .ok (some ⟨2023, 12, 31, 23, 59, 59⟩) :=
  ⟨by decide, c7_theorem.2.1 ⟨2023, 12, 31, 23, 59, 59⟩ (by decide)⟩

theorem parseDues_all_none {A : List Assignment} (h : ∀ a ∈ A, a.due_at = none) :
    parseDues A = .ok (A.map (fun _ => none)) := by
  induction A with
  | nil => rfl
  | cons a rest ih =>
    rw [parseDues, h a (List.mem_cons_self a rest)]
    rw [show z_to_dt none = .ok none from rfl, ebind_ok]
    rw [ih (fun x hx => h x (List.mem_cons_of_mem a hx)), ebind_ok, epure]
    rfl

theorem collectBucket_all_none {A : List Assignment} (h : ∀ a ∈ A, a.due_at = none) :
    collectBucket none A = .ok (A.map (fun a => a.id)) := by
  induction A with
  | nil => rfl
  | cons a rest ih =>
    rw [collectBucket, h a (List.mem_cons_self a rest)]
    rw [show z_to_dt none = .ok none from rfl, ebind_ok]
    rw [ih (fun x hx => h x (List.mem_cons_of_mem a hx)), ebind_ok, epure]
    simp

/-- C9 counterexample: a course whose single assignment has no due date
yields a defined seed, the None sentinel, rather than failing. -/
theorem c9_counterexample : first_due_date [⟨1, none⟩] = .ok none := by decide

/-- C9 amended: the seed step fails by indexing into an empty ordering
exactly when the course has no assignments at all; when assignments exist
but none carries a due date, the ordering lists every assignment in the
undated bucket and the seed is the defined None sentinel. -/
theorem c9_theorem :
    first_due_date ([] : List Assignment) = .error .indexError ∧
    (∀ A : List Assignment, A ≠ [] → (∀ a ∈ A, a.due_at = none) →
      first_due_date A = .ok none) := by
  constructor
  · decide
  · intro A hne h
    obtain ⟨a0, A', rfl⟩ : ∃ a0 A', A = a0 :: A' := by
      cases A with
      | nil => exact absurd rfl hne
      | cons a0 A' => exact ⟨a0, A', rfl⟩
    have hids : assignment_ids_by_due_date (a0 :: A') =
        .ok ((a0 :: A').map (fun a => a.id)) := by
      rw [assignment_ids_by_due_date, parseDues_all_none h, ebind_ok]
      rw [show ((a0 :: A').map (fun _ => (none : Option Datetime))).filterMap
        (fun x => x) = [] by simp]
      show collectBuckets (a0 :: A') (List.map some (dtSortL (dedupPy [])) ++ [none]) = _
      rw [show (List.map some (dtSortL (dedupPy [])) ++ [none]) =
        [(none : Option Datetime)] from rfl]
      rw [collectBuckets, collectBucket_all_none h, ebind_ok]
      rw [collectBuckets, ebind_ok, epure]
      simp
    rw [first_due_date, hids, ebind_ok]
    simp only [List.map_cons]
    rw [show dueOf (a0 :: A') a0.id = .ok a0.due_at by
      rw [dueOf]
      rw [show (a0 :: A').find? (fun a => a.id == a0.id) = some a0 by
        rw [List.find?]
        simp]]
    rw [ebind_ok, h a0 (List.mem_cons_self a0 A')]
    rfl

/-- Witness for C9 amended at a concrete one assignment course. -/
theorem c9_witness : first_due_date [⟨7, none⟩] = .ok none :=
  c9_theorem.2 [⟨7, none⟩] (by decide) (by
    intro a ha
    rcases List.mem_singleton.mp ha with rfl
    rfl)

theorem lookupS_update_self {α : Type} {st : List (String × α)} {k : String} {v0 : α}
    (h : lookupS st k = some v0) (v : α) : lookupS (updateS st k v) k = some v := by
  induction st with
  | nil => simp [lookupS] at h
  | cons p rest ih =>
    obtain ⟨k1, v1⟩ := p
    by_cases hk : k1 = k
    · subst hk
      rw [updateS, if_pos (by simp)]
      rw [lookupS, if_pos (by simp)]
    · rw [lookupS, if_neg (by simp [hk])] at h
      rw [updateS, if_neg (by simp [hk])]
      rw [lookupS, if_neg (by simp [hk])]
      exact ih h

theorem lookupS_update_ne {α : Type} (st : List (String × α)) {k q : String}
    (h : ¬ k = q) (v : α) : lookupS (updateS st k v) q = lookupS st q := by
  induction st with
  | nil => rfl
  | cons p rest ih =>
    obtain ⟨k1, v1⟩ := p
    by_cases hk : k1 = k
    · subst hk
      rw [updateS, if_pos (by simp)]
      rw [lookupS, lookupS, if_neg (by simp [h]), if_neg (by simp [h])]
    · rw [updateS, if_neg (by simp [hk])]
      by_cases hq : k1 = q
      · subst hq
        rw [lookupS, lookupS, if_pos (by simp), if_pos (by simp)]
      · rw [lookupS, lookupS, if_neg (by simp [hq]), if_neg (by simp [hq])]
        exact ih

theorem lookupS_map_mem {β : Type} {students : List String} {sid : String}
    (h : sid ∈ students) (f : String → β) :
    lookupS (students.map (fun s => (s, f s))) sid = some (f sid) := by
  induction students with
  | nil => cases h
  | cons s rest ih =>
    rw [List.map_cons, lookupS]
    by_cases hs : s = sid
    · subst hs
      rw [if_pos (by simp)]
    · rw [if_neg (by simp [hs])]
      apply ih
      rcases List.mem_cons.mp h with rfl | hm
      · exact absurd rfl hs
      · exact hm

theorem mem_flatMapL {α β : Type} {f : α → List β} {l : List α} {x : β} :
    x ∈ flatMapL f l ↔ ∃ y ∈ l, x ∈ f y := by
  induction l with
  | nil => simp [flatMapL]
  | cons a as ih =>
    rw [flatMapL, List.mem_append, ih]
    constructor
    · rintro (h | ⟨y, hy, hx⟩)
      · exact ⟨a, List.mem_cons_self a as, h⟩
      · exact ⟨y, List.mem_cons_of_mem a hy, hx⟩
    · rintro ⟨y, hy, hx⟩
      rcases List.mem_cons.mp hy with rfl | hy2
      · exact Or.inl hx
      · exact Or.inr ⟨y, hy2, hx⟩

theorem flatMapL_congr {α β : Type} {f g : α → List β} {l : List α}
    (h : ∀ x ∈ l, f x = g x) : flatMapL f l = flatMapL g l := by
  induction l with
  | nil => rfl
  | cons a as ih =>
    rw [flatMapL, flatMapL, h a (List.mem_cons_self a as),
      ih (fun x hx => h x (List.mem_cons_of_mem a hx))]

theorem mem_dedupPy {x : Datetime} {l : List Datetime} : x ∈ dedupPy l ↔ x ∈ l := by
  induction l with
  | nil => simp [dedupPy]
  | cons a as ih =>
    rw [dedupPy]
    by_cases ha : a ∈ as
    · rw [if_pos ha, ih]
      constructor
      · exact fun h => List.mem_cons_of_mem a h
      · intro h
        rcases List.mem_cons.mp h with rfl | h2
        · exact ha
        · exact h2
    · rw [if_neg ha]
      rw [List.mem_cons, List.mem_cons, ih]

theorem mem_dtInsert {x z : Datetime} {l : List Datetime} :
    z ∈ dtInsert x l ↔ z = x ∨ z ∈ l := by
  induction l with
  | nil => simp [dtInsert]
  | cons y ys ih =>
    rw [dtInsert]
    by_cases h : dtLt y x = true
    · rw [if_pos h, List.mem_cons, ih, List.mem_cons]
      tauto
    · rw [if_neg h, List.mem_cons, List.mem_cons]

theorem mem_dtSortL {z : Datetime} {l : List Datetime} : z ∈ dtSortL l ↔ z ∈ l := by
  induction l with
  | nil => simp [dtSortL]
  | cons x xs ih =>
    rw [dtSortL, mem_dtInsert, ih, List.mem_cons]

theorem dtInsert_pairwise {x : Datetime} {l : List Datetime}
    (h : List.Pairwise dtLe l) : List.Pairwise dtLe (dtInsert x l) := by
  induction l with
  | nil => simp [dtInsert]
  | cons y ys ih =>
    rw [List.pairwise_cons] at h
    rw [dtInsert]
    by_cases hlt : dtLt y x = true
    · rw [if_pos hlt]
      rw [List.pairwise_cons]
      constructor
      · intro z hz
        rcases mem_dtInsert.mp hz with rfl | hz2
        · exact dtLt_asymm hlt
        · exact h.1 z hz2
      · exact ih h.2
    · rw [if_neg hlt]
      rw [List.pairwise_cons]
      constructor
      · intro z hz
        rcases List.mem_cons.mp hz with rfl | hz2
        · simpa [dtLe] using hlt
        · exact dtLe_trans (by simpa [dtLe] using hlt) (h.1 z hz2)
      · rw [List.pairwise_cons]
        exact h

theorem dtSortL_pairwise (l : List Datetime) : List.Pairwise dtLe (dtSortL l) := by
  induction l with
  | nil => simp [dtSortL]
  | cons x xs ih => exact dtInsert_pairwise ih

theorem find?_of_nodup {A : List Assignment} {a : Assignment}
    (hnod : (A.map (fun x => x.id)).Nodup) (ha : a ∈ A) :
    A.find? (fun x => x.id == a.id) = some a := by
  induction A with
  | nil => cases ha
  | cons b rest ih =>
    rw [List.map_cons, List.nodup_cons] at hnod
    rcases List.mem_cons.mp ha with rfl | ha2
    · rw [List.find?]
      simp
    · have hne : ¬ (b.id == a.id) = true := by
        simp only [beq_iff_eq]
        intro he
        apply hnod.1
        rw [he]
        exact List.mem_map_of_mem _ ha2
      rw [List.find?]
      rw [Bool.of_not_eq_true hne]
      exact ih hnod.2 ha2

theorem parseDues_ok {A : List Assignment} (h : DueParses A) :
    parseDues A = .ok (A.map parsedDue) := by
  induction A with
  | nil => rfl
  | cons a rest ih =>
    obtain ⟨od, hod⟩ := h a (List.mem_cons_self a rest)
    rw [parseDues, hod, ebind_ok,
      ih (fun x hx => h x (List.mem_cons_of_mem a hx)), ebind_ok, epure]
    simp [parsedDue, hod]

theorem collectBucket_ok {A : List Assignment} (date : Option Datetime)
    (h : DueParses A) :
    collectBucket date A =
      .ok (A.filterMap (fun a => if parsedDue a = date then some a.id else none)) := by
  induction A with
  | nil => rfl
  | cons a rest ih =>
    obtain ⟨od, hod⟩ := h a (List.mem_cons_self a rest)
    rw [collectBucket, hod, ebind_ok,
      ih (fun x hx => h x (List.mem_cons_of_mem a hx)), ebind_ok, epure]
    have hpd : parsedDue a = od := by rw [parsedDue, hod]
    by_cases hd : od = date
    · simp [List.filterMap_cons, hpd, hd]
    · simp [List.filterMap_cons, hpd, hd]

theorem collectBuckets_ok {A : List Assignment} (dates : List (Option Datetime))
    (h : DueParses A) :
    collectBuckets A dates =
      .ok (flatMapL (fun date =>
        A.filterMap (fun a => if parsedDue a = date then some a.id else none)) dates) := by
  induction dates with
  | nil => rfl
  | cons d ds ih =>
    rw [collectBuckets, collectBucket_ok d h, ebind_ok, ih, ebind_ok, epure, flatMapL]

theorem ids_eq {A : List Assignment} (h : DueParses A) :
    assignment_ids_by_due_date A = .ok (idsList A) := by
  rw [assignment_ids_by_due_date, parseDues_ok h, ebind_ok]
  show collectBuckets A
    ((dtSortL (dedupPy ((A.map parsedDue).filterMap (fun x => x)))).map some ++ [none]) = _
  rw [collectBuckets_ok _ h]
  rfl

theorem mem_idsList_of_mem {A : List Assignment} {a : Assignment} (ha : a ∈ A) :
    a.id ∈ idsList A := by
  rw [idsList, mem_flatMapL]
  cases hd : parsedDue a with
  | none =>
    refine ⟨none, List.mem_append_right _ (List.mem_singleton.mpr rfl), ?_⟩
    rw [List.mem_filterMap]
    exact ⟨a, ha, by rw [hd]; simp⟩
  | some d =>
    refine ⟨some d, ?_, ?_⟩
    · apply List.mem_append_left
      apply List.mem_map_of_mem some
      rw [mem_dtSortL, mem_dedupPy, List.mem_filterMap]
      exact ⟨some d, by
        rw [← hd]
        exact List.mem_map_of_mem parsedDue ha, rfl⟩
    · rw [List.mem_filterMap]
      exact ⟨a, ha, by rw [hd]; simp⟩

theorem mem_of_mem_idsList {A : List Assignment} {aid : Nat}
    (h : aid ∈ idsList A) : ∃ a ∈ A, a.id = aid := by
  rw [idsList, mem_flatMapL] at h
  obtain ⟨date, hdate, hmem⟩ := h
  rw [List.mem_filterMap] at hmem
  obtain ⟨a, ha, hcond⟩ := hmem
  by_cases hc : parsedDue a = date
  · rw [if_pos hc] at hcond
    injection hcond with he
    exact ⟨a, ha, he⟩
  · rw [if_neg hc] at hcond
    cases hcond

theorem datedDues_eq (A : List Assignment) :
    (A.map parsedDue).filterMap (fun x => x) = datedDues A := by
  rw [datedDues]
  induction A with
  | nil => rfl
  | cons a rest ih =>
    cases hd : parsedDue a <;>
      simp [List.filterMap_cons, hd, ih]

theorem first_due_date_min {A : List Assignment}
    (hnod : (A.map (fun x => x.id)).Nodup) (hpar : DueParses A)
    (hdated : ∃ a ∈ A, parsedDue a ≠ none) :
    ∃ e, first_due_date A = .ok (some e) ∧ listMinD (datedDues A) = some e ∧
      ∀ x ∈ datedDues A, dtLe e x := by
  obtain ⟨a0, ha0, ha0d⟩ := hdated
  obtain ⟨d00, hd00⟩ : ∃ d00, parsedDue a0 = some d00 := by
    cases hpd : parsedDue a0 with
    | none => exact absurd hpd ha0d
    | some d => exact ⟨d, rfl⟩
  have hd00s : d00 ∈ dtSortL (dedupPy ((A.map parsedDue).filterMap (fun x => x))) := by
    rw [mem_dtSortL, mem_dedupPy, List.mem_filterMap]
    exact ⟨some d00, by rw [← hd00]; exact List.mem_map_of_mem parsedDue ha0, rfl⟩
  obtain ⟨d0, drest, hsorted⟩ : ∃ d0 drest,
      dtSortL (dedupPy ((A.map parsedDue).filterMap (fun x => x))) = d0 :: drest := by
    cases hs : dtSortL (dedupPy ((A.map parsedDue).filterMap (fun x => x))) with
    | nil => rw [hs] at hd00s; cases hd00s
    | cons d0 drest => exact ⟨d0, drest, rfl⟩
  have hd0mem : d0 ∈ datedDues A := by
    rw [← datedDues_eq]
    rw [← mem_dedupPy, ← mem_dtSortL, hsorted]
    exact List.mem_cons_self d0 drest
  have hd0le : ∀ x ∈ datedDues A, dtLe d0 x := by
    intro x hx
    rw [← datedDues_eq, ← mem_dedupPy, ← mem_dtSortL, hsorted] at hx
    rcases List.mem_cons.mp hx with rfl | hx2
    · exact dtLe_refl x
    · have hp := dtSortL_pairwise (dedupPy ((A.map parsedDue).filterMap (fun x => x)))
      rw [hsorted, List.pairwise_cons] at hp
      exact hp.1 x hx2
  obtain ⟨a1, ha1, ha1d⟩ : ∃ a1 ∈ A, parsedDue a1 = some d0 := by
    have : d0 ∈ datedDues A := hd0mem
    rw [datedDues, List.mem_filterMap] at this
    exact this
  have hbc : a1.id ∈ A.filterMap
      (fun a => if parsedDue a = some d0 then some a.id else none) := by
    rw [List.mem_filterMap]
    exact ⟨a1, ha1, by rw [if_pos ha1d]⟩
  obtain ⟨b0, brest, hb⟩ : ∃ b0 brest, A.filterMap
      (fun a => if parsedDue a = some d0 then some a.id else none) = b0 :: brest := by
    cases hbk : A.filterMap
        (fun a => if parsedDue a = some d0 then some a.id else none) with
    | nil => rw [hbk] at hbc; cases hbc
    | cons b0 brest => exact ⟨b0, brest, rfl⟩
  obtain ⟨a2, ha2, ha2c⟩ : ∃ a2 ∈ A,
      (if parsedDue a2 = some d0 then some a2.id else none) = some b0 := by
    have : b0 ∈ A.filterMap
        (fun a => if parsedDue a = some d0 then some a.id else none) := by
      rw [hb]; exact List.mem_cons_self b0 brest
    rw [List.mem_filterMap] at this
    exact this
  obtain ⟨ha2d, ha2id⟩ : parsedDue a2 = some d0 ∧ a2.id = b0 := by
    by_cases hc : parsedDue a2 = some d0
    · rw [if_pos hc] at ha2c
      injection ha2c with he
      exact ⟨hc, he⟩
    · rw [if_neg hc] at ha2c
      cases ha2c
  have hids : idsList A = b0 :: (brest ++ flatMapL
      (fun date => A.filterMap (fun a => if parsedDue a = date then some a.id else none))
      (drest.map some ++ [none])) := by
    rw [idsList, hsorted, List.map_cons, List.cons_append, flatMapL, hb]
    rfl
  refine ⟨d0, ?_, ?_, hd0le⟩
  · rw [first_due_date, ids_eq hpar, ebind_ok, hids]
    obtain ⟨od2, hod2⟩ := hpar a2 ha2
    have hod2d : od2 = some d0 := by
      rw [← ha2d, parsedDue, hod2]
    show (do
      let ds ← dueOf A b0
      z_to_dt ds) = Except.ok (some d0)
    rw [show dueOf A b0 = .ok a2.due_at by
      rw [dueOf, ← ha2id, find?_of_nodup hnod ha2]]
    rw [ebind_ok, hod2, hod2d]
  · have hne : datedDues A ≠ [] := by
      intro he
      rw [he] at hd0mem
      cases hd0mem
    obtain ⟨x0, xs, hx⟩ : ∃ x0 xs, datedDues A = x0 :: xs := by
      cases hxx : datedDues A with
      | nil => exact absurd hxx hne
      | cons x0 xs => exact ⟨x0, xs, rfl⟩
    rw [hx, listMinD]
    have hmmem : List.foldl minD x0 xs ∈ datedDues A := by
      rw [hx]
      rcases foldlMin_mem x0 xs with he | he
      · rw [he]; exact List.mem_cons_self x0 xs
      · exact List.mem_cons_of_mem x0 he
    have hmle : ∀ y ∈ datedDues A, dtLe (List.foldl minD x0 xs) y := by
      intro y hy
      rw [hx] at hy
      rcases List.mem_cons.mp hy with rfl | hy2
      · exact foldlMin_le_init _ _
      · exact foldlMin_le_mem x0 hy2
    have : List.foldl minD x0 xs = d0 :=
      dtLe_antisymm (hmle d0 hd0mem) (hd0le _ hmmem)
    rw [this]

theorem flatMapL_nil_fun {α β : Type} (l : List α) :
    flatMapL (fun _ => ([] : List β)) l = [] := by
  induction l with
  | nil => rfl
  | cons x xs ih => rw [flatMapL, ih]; rfl

theorem subContrib_none {A : List Assignment} {sid : String} {aid : Nat}
    (sub : Submission) (h : pdueOfId A aid = none) : subContrib A sid aid sub = [] := by
  rw [subContrib, h]

theorem subContrib_some {A : List Assignment} {sid : String} {aid : Nat} {d : Datetime}
    (sub : Submission) (h : pdueOfId A aid = some d) :
    subContrib A sid aid sub =
      if sub.score.isFloat = true ∧ 0 < sub.score.val ∧ toString sub.user_id = sid
      then [d] else [] := by
  rw [subContrib, h]

theorem nzStepP_char (A : List Assignment) (students : List String) (st : StMap)
    (aid : Nat) (sub : Submission) (a : Assignment)
    (hfind : A.find? (fun x => x.id == aid) = some a)
    (hpar : ∃ od, z_to_dt a.due_at = .ok od)
    (hinv : ∀ s ∈ students, ∃ c, lookupS st s = some (some c)) :
    ∃ st2, nzStepP A students st aid sub = .ok st2 ∧
      (∀ s ∈ students, ∃ c, lookupS st2 s = some (some c)) ∧
      (∀ s c, s ∈ students → lookupS st s = some (some c) →
        lookupS st2 s = some (some (List.foldl maxD c (subContrib A s aid sub)))) := by
  obtain ⟨od, hod⟩ := hpar
  have hdueOf : dueOf A aid = .ok a.due_at := by rw [dueOf, hfind]
  have hpdue : pdueOfId A aid = od := by
    rw [pdueOfId, hfind]
    show parsedDue a = od
    rw [parsedDue, hod]
  by_cases hf : sub.score.isFloat = false
  · refine ⟨st, by rw [nzStepP, if_pos hf], hinv, ?_⟩
    intro s c hs hc
    cases hpd2 : pdueOfId A aid with
    | none => rw [subContrib_none sub hpd2]; simpa using hc
    | some d =>
      rw [subContrib_some sub hpd2, if_neg (fun hcond => by
        rw [hf] at hcond
        exact absurd hcond.1 (by simp))]
      simpa using hc
  · have hft : sub.score.isFloat = true := by
      simpa using hf
    cases od with
    | none =>
      have hstep : nzStepP A students st aid sub = .ok st := by
        simp only [nzStepP, hft, hdueOf, ebind_ok, hod]
        simp
      refine ⟨st, hstep, hinv, ?_⟩
      intro s c hs hc
      rw [subContrib_none sub hpdue]
      simpa using hc
    | some d =>
      by_cases hmem : toString sub.user_id ∈ students
      · by_cases hq : 0 < sub.score.val
        · obtain ⟨c0, hc0⟩ := hinv (toString sub.user_id) hmem
          cases hlt : dtLt c0 d with
          | true =>
            have hstep : nzStepP A students st aid sub =
                .ok (updateS st (toString sub.user_id) (some d)) := by
              simp only [nzStepP, hft, hdueOf, ebind_ok, hod, hmem, hq, hc0, hlt]
              simp
            refine ⟨updateS st (toString sub.user_id) (some d), hstep, ?_, ?_⟩
            · intro s hs
              by_cases hseq : toString sub.user_id = s
              · subst hseq
                exact ⟨d, lookupS_update_self hc0 (some d)⟩
              · obtain ⟨c2, hc2⟩ := hinv s hs
                exact ⟨c2, by rw [lookupS_update_ne st hseq]; exact hc2⟩
            · intro s c hs hc
              rw [subContrib_some sub hpdue]
              by_cases hseq : toString sub.user_id = s
              · subst hseq
                have hcc : c = c0 := by
                  rw [hc0] at hc
                  injection hc with h2
                  injection h2 with h3
                  exact h3.symm
                subst hcc
                rw [if_pos ⟨hft, hq, rfl⟩]
                rw [lookupS_update_self hc0]
                rw [show List.foldl maxD c [d] = maxD c d from rfl]
                rw [maxD, if_pos hlt]
              · rw [if_neg (fun hcond => hseq hcond.2.2)]
                rw [lookupS_update_ne st hseq]
                simpa using hc
          | false =>
            have hstep : nzStepP A students st aid sub = .ok st := by
              simp only [nzStepP, hft, hdueOf, ebind_ok, hod, hmem, hq, hc0, hlt]
              simp
            refine ⟨st, hstep, hinv, ?_⟩
            intro s c hs hc
            rw [subContrib_some sub hpdue]
            by_cases hseq : toString sub.user_id = s
            · subst hseq
              have hcc : c = c0 := by
                rw [hc0] at hc
                injection hc with h2
                injection h2 with h3
                exact h3.symm
              subst hcc
              rw [if_pos ⟨hft, hq, rfl⟩]
              rw [show List.foldl maxD c [d] = maxD c d from rfl]
              rw [maxD, hlt]
              simpa using hc
            · rw [if_neg (fun hcond => hseq hcond.2.2)]
              simpa using hc
        · have hstep : nzStepP A students st aid sub = .ok st := by
            simp only [nzStepP, hft, hdueOf, ebind_ok, hod, hmem, hq]
            simp
          refine ⟨st, hstep, hinv, ?_⟩
          intro s c hs hc
          rw [subContrib_some sub hpdue]
          rw [if_neg (fun hcond => hq hcond.2.1)]
          simpa using hc
      · have hstep : nzStepP A students st aid sub = .ok st := by
          simp only [nzStepP, hft, hdueOf, ebind_ok, hod, hmem]
          simp
        refine ⟨st, hstep, hinv, ?_⟩
        intro s c hs hc
        rw [subContrib_some sub hpdue]
        rw [if_neg (fun hcond => hmem (by rw [hcond.2.2]; exact hs))]
        simpa using hc

theorem contribsOf_none {A : List Assignment} {subsFor : Nat → List Submission}
    {sid : String} {aid : Nat} (h : pdueOfId A aid = none) :
    contribsOf A subsFor sid aid = [] := by
  rw [contribsOf, h]

theorem contribsOf_some {A : List Assignment} {subsFor : Nat → List Submission}
    {sid : String} {aid : Nat} {d : Datetime} (h : pdueOfId A aid = some d) :
    contribsOf A subsFor sid aid = (subsFor aid).filterMap (fun sub =>
      if sub.score.isFloat = true ∧ 0 < sub.score.val ∧ toString sub.user_id = sid then
        some d
      else none) := by
  rw [contribsOf, h]

theorem contribsOf_eq_flat (A : List Assignment) (subsFor : Nat → List Submission)
    (sid : String) (aid : Nat) :
    contribsOf A subsFor sid aid = flatMapL (subContrib A sid aid) (subsFor aid) := by
  cases hpd : pdueOfId A aid with
  | none =>
    rw [contribsOf_none hpd]
    rw [flatMapL_congr (fun sub _ => subContrib_none sub hpd), flatMapL_nil_fun]
  | some d =>
    rw [contribsOf_some hpd]
    generalize subsFor aid = l
    induction l with
    | nil => rfl
    | cons sub ls ihl =>
      rw [flatMapL, subContrib_some sub hpd]
      by_cases hcond : sub.score.isFloat = true ∧ 0 < sub.score.val ∧
          toString sub.user_id = sid
      · rw [if_pos hcond]
        have hcons : List.filterMap (fun sub =>
            if sub.score.isFloat = true ∧ 0 < sub.score.val ∧ toString sub.user_id = sid
            then some d else none) (sub :: ls) =
            d :: List.filterMap (fun sub =>
            if sub.score.isFloat = true ∧ 0 < sub.score.val ∧ toString sub.user_id = sid
            then some d else none) ls := by
          simp [hcond.1, hcond.2.1, hcond.2.2]
        rw [hcons, ihl]
        rfl
      · rw [if_neg hcond]
        have hcons : List.filterMap (fun sub =>
            if sub.score.isFloat = true ∧ 0 < sub.score.val ∧ toString sub.user_id = sid
            then some d else none) (sub :: ls) =
            List.filterMap (fun sub =>
            if sub.score.isFloat = true ∧ 0 < sub.score.val ∧ toString sub.user_id = sid
            then some d else none) ls := by
          simp [List.filterMap_cons, hcond]
        rw [hcons, ihl]
        rfl

theorem nzSubsP_char (A : List Assignment) (students : List String) (aid : Nat)
    (a : Assignment) (hfind : A.find? (fun x => x.id == aid) = some a)
    (hpar : ∃ od, z_to_dt a.due_at = .ok od) :
    ∀ (subs : List Submission) (st : StMap),
      (∀ s ∈ students, ∃ c, lookupS st s = some (some c)) →
      ∃ st2, nzSubsP A students aid subs st = .ok st2 ∧
        (∀ s ∈ students, ∃ c, lookupS st2 s = some (some c)) ∧
        (∀ s c, s ∈ students → lookupS st s = some (some c) →
          lookupS st2 s = some (some (List.foldl maxD c
            (flatMapL (subContrib A s aid) subs)))) := by
  intro subs
  induction subs with
  | nil =>
    intro st hinv
    refine ⟨st, rfl, hinv, ?_⟩
    intro s c hs hc
    simpa using hc
  | cons sub rest ih =>
    intro st hinv
    obtain ⟨st1, hst1, hinv1, hchar1⟩ := nzStepP_char A students st aid sub a hfind hpar hinv
    obtain ⟨st2, hst2, hinv2, hchar2⟩ := ih st1 hinv1
    refine ⟨st2, ?_, hinv2, ?_⟩
    · rw [nzSubsP, hst1, ebind_ok, hst2]
    · intro s c hs hc
      rw [flatMapL, List.foldl_append]
      exact hchar2 s _ hs (hchar1 s c hs hc)

theorem nzWalkP_char (A : List Assignment) (students : List String)
    (subsFor : Nat → List Submission) :
    ∀ (ids : List Nat) (st : StMap),
      (∀ aid ∈ ids, ∃ a, A.find? (fun x => x.id == aid) = some a ∧
        ∃ od, z_to_dt a.due_at = .ok od) →
      (∀ s ∈ students, ∃ c, lookupS st s = some (some c)) →
      ∃ st2, nzWalkP A students subsFor ids st = .ok st2 ∧
        (∀ s ∈ students, ∃ c, lookupS st2 s = some (some c)) ∧
        (∀ s c, s ∈ students → lookupS st s = some (some c) →
          lookupS st2 s = some (some (List.foldl maxD c
            (walkContribs A subsFor s ids)))) := by
  intro ids
  induction ids with
  | nil =>
    intro st hids hinv
    refine ⟨st, rfl, hinv, ?_⟩
    intro s c hs hc
    simpa [walkContribs, flatMapL] using hc
  | cons aid rest ih =>
    intro st hids hinv
    obtain ⟨a, hfind, hpar⟩ := hids aid (List.mem_cons_self aid rest)
    obtain ⟨st1, hst1, hinv1, hchar1⟩ :=
      nzSubsP_char A students aid a hfind hpar (subsFor aid) st hinv
    obtain ⟨st2, hst2, hinv2, hchar2⟩ :=
      ih st1 (fun x hx => hids x (List.mem_cons_of_mem aid hx)) hinv1
    refine ⟨st2, ?_, hinv2, ?_⟩
    · rw [nzWalkP, hst1, ebind_ok, hst2]
    · intro s c hs hc
      rw [walkContribs, flatMapL, List.foldl_append]
      have he : contribsOf A subsFor s aid = flatMapL (subContrib A s aid) (subsFor aid) :=
        contribsOf_eq_flat A subsFor s aid
      rw [he]
      exact hchar2 s _ hs (hchar1 s c hs hc)

theorem contribsOf_id (A : List Assignment) (subsFor : Nat → List Submission)
    (sid : String) {a : Assignment}
    (hnod : (A.map (fun x => x.id)).Nodup) (ha : a ∈ A) :
    contribsOf A subsFor sid a.id = posContrib subsFor sid a := by
  have hpdue : pdueOfId A a.id = parsedDue a := by
    rw [pdueOfId, find?_of_nodup hnod ha]
  cases hpd : parsedDue a with
  | none => rw [contribsOf_none (by rw [hpdue, hpd]), posContrib, hpd]
  | some d => rw [contribsOf_some (by rw [hpdue, hpd]), posContrib, hpd]

theorem posDue_sub_dated {snap : Snapshot} {sid : String} {x : Datetime}
    (h : x ∈ posDueList snap sid) : x ∈ datedDues snap.assignments := by
  rw [posDueList, mem_flatMapL] at h
  obtain ⟨a, ha, hx⟩ := h
  rw [posContrib] at hx
  cases hpd : parsedDue a with
  | none => rw [hpd] at hx; cases hx
  | some d =>
    rw [hpd] at hx
    rw [List.mem_filterMap] at hx
    obtain ⟨sub, hsub, hcond⟩ := hx
    have hxd : x = d := by
      by_cases hc : sub.score.isFloat = true ∧ 0 < sub.score.val ∧
          toString sub.user_id = sid
      · rw [if_pos hc] at hcond
        injection hcond with he
        exact he.symm
      · rw [if_neg hc] at hcond
        cases hcond
    subst hxd
    rw [datedDues, List.mem_filterMap]
    exact ⟨a, ha, hpd⟩

/-- C3 amended: in last_participation.py, for every active student the
computed value is the maximum due date over the strictly positive
float scored submissions of that student on dated assignments, never below the
earliest due date of the course, and it equals the earliest due date
exactly when the student has no such submission (the code skips integer
typed scores, so only float typed scores count). -/
theorem c3_theorem (snap : Snapshot) (sid : String)
    (hnod : (snap.assignments.map (fun a => a.id)).Nodup)
    (hpar : DueParses snap.assignments)
    (hsid : sid ∈ snap.students)
    (hdated : ∃ a ∈ snap.assignments, parsedDue a ≠ none) :
    ∃ res e, last_non_zero_score snap = .ok res ∧
      listMinD (datedDues snap.assignments) = some e ∧
      (posDueList snap sid = [] → lookupS res sid = some (some e)) ∧
      (∀ m, listMaxD (posDueList snap sid) = some m →
        lookupS res sid = some (some m) ∧ dtLe e m) := by
  obtain ⟨e, hfdd, hmin, hle⟩ := first_due_date_min hnod hpar hdated
  have hids := ids_eq hpar
  have hwids : ∀ aid ∈ idsList snap.assignments, ∃ a,
      snap.assignments.find? (fun x => x.id == aid) = some a ∧
      ∃ od, z_to_dt a.due_at = .ok od := by
    intro aid hmem
    obtain ⟨a, ha, haid⟩ := mem_of_mem_idsList hmem
    exact ⟨a, by rw [← haid]; exact find?_of_nodup hnod ha, hpar a ha⟩
  have hinv0 : ∀ s ∈ snap.students, ∃ c,
      lookupS (snap.students.map (fun s => (s, some e))) s = some (some c) := by
    intro s hs
    exact ⟨e, lookupS_map_mem hs _⟩
  obtain ⟨st2, hwalk, hinv2, hchar⟩ := nzWalkP_char snap.assignments snap.students
    snap.subsFor (idsList snap.assignments) _ hwids hinv0
  have hval := hchar sid e hsid (lookupS_map_mem hsid _)
  have hmemiff : ∀ x, x ∈ walkContribs snap.assignments snap.subsFor sid
      (idsList snap.assignments) ↔ x ∈ posDueList snap sid := by
    intro x
    rw [walkContribs, mem_flatMapL, posDueList, mem_flatMapL]
    constructor
    · rintro ⟨aid, haid, hx⟩
      obtain ⟨a, ha, haid2⟩ := mem_of_mem_idsList haid
      refine ⟨a, ha, ?_⟩
      rw [← haid2, contribsOf_id snap.assignments snap.subsFor sid hnod ha] at hx
      exact hx
    · rintro ⟨a, ha, hx⟩
      refine ⟨a.id, mem_idsList_of_mem ha, ?_⟩
      rw [contribsOf_id snap.assignments snap.subsFor sid hnod ha]
      exact hx
  rw [foldlMax_congr e _ _ hmemiff] at hval
  refine ⟨st2, e, ?_, hmin, ?_, ?_⟩
  · rw [last_non_zero_score, hids, ebind_ok, hfdd, ebind_ok, hwalk]
  · intro hpl
    rw [hpl] at hval
    exact hval
  · intro m hm
    cases hpl : posDueList snap sid with
    | nil => rw [hpl, listMaxD] at hm; cases hm
    | cons x xs =>
      rw [hpl] at hm hval
      rw [listMaxD] at hm
      injection hm with hm2
      have hex : dtLe e x := hle x (posDue_sub_dated (by
        rw [hpl]; exact List.mem_cons_self x xs))
      rw [foldlMax_cons_of_le xs hex] at hval
      rw [hm2] at hval
      refine ⟨hval, ?_⟩
      rw [← hm2]
      exact dtLe_trans hex (foldlMax_le_init x xs)

/-- Witness for C3 amended at a concrete course with one positive float
scored submission. -/
theorem c3_witness :
    ∃ res e, last_non_zero_score snapW = .ok res ∧
      listMinD (datedDues snapW.assignments) = some e ∧
      (posDueList snapW "5" = [] → lookupS res "5" = some (some e)) ∧
      (∀ m, listMaxD (posDueList snapW "5") = some m →
        lookupS res "5" = some (some m) ∧ dtLe e m) := by
  apply c3_theorem snapW "5" (by decide) ?_ (by decide) ?_
  · intro a ha
    simp only [snapW] at ha
    rcases List.mem_cons.mp ha with rfl | ha2
    · exact ⟨some ⟨2024, 1, 1, 0, 0, 0⟩, by decide⟩
    · rcases List.mem_singleton.mp ha2 with rfl
      exact ⟨some ⟨2024, 2, 1, 0, 0, 0⟩, by decide⟩
  · exact ⟨⟨1, some "2024-01-01T00:00:00Z".data⟩, by decide, by decide⟩

theorem lsContrib_none {sub : Submission} (sid : String) (h : parsedSub sub = none) :
    lsContrib sid sub = [] := by
  rw [lsContrib, h]

theorem lsContrib_some {sub : Submission} {t : Datetime} (sid : String)
    (h : parsedSub sub = some t) :
    lsContrib sid sub = if toString sub.user_id = sid then [t] else [] := by
  rw [lsContrib, h]

theorem lsStep_char (students : List String) (st : StMap) (sub : Submission)
    (hpar : ∃ o, z_to_dt sub.submitted_at = .ok o)
    (hinv : ∀ s ∈ students, ∃ v, lookupS st s = some v) :
    ∃ st2, lsStep students st sub = .ok st2 ∧
      (∀ s ∈ students, ∃ v, lookupS st2 s = some v) ∧
      (∀ s v, s ∈ students → lookupS st s = some v →
        lookupS st2 s = some (List.foldl lsMax v (lsContrib s sub))) := by
  obtain ⟨o, ho⟩ := hpar
  have hps : parsedSub sub = o := by rw [parsedSub, ho]
  cases o with
  | none =>
    have hstep : lsStep students st sub = .ok st := by
      simp only [lsStep, ho, ebind_ok]
    refine ⟨st, hstep, hinv, ?_⟩
    intro s v hs hv
    rw [lsContrib_none s hps]
    simpa using hv
  | some t =>
    by_cases hmem : toString sub.user_id ∈ students
    · obtain ⟨v0, hv0⟩ := hinv _ hmem
      cases v0 with
      | none =>
        have hstep : lsStep students st sub =
            .ok (updateS st (toString sub.user_id) (some t)) := by
          simp only [lsStep, ho, ebind_ok, hmem, hv0]
          simp
        refine ⟨_, hstep, ?_, ?_⟩
        · intro s hs
          by_cases hseq : toString sub.user_id = s
          · subst hseq
            exact ⟨some t, lookupS_update_self hv0 _⟩
          · obtain ⟨v2, hv2⟩ := hinv s hs
            exact ⟨v2, by rw [lookupS_update_ne st hseq]; exact hv2⟩
        · intro s v hs hv
          rw [lsContrib_some s hps]
          by_cases hseq : toString sub.user_id = s
          · subst hseq
            have hvv : v = none := by
              rw [hv0] at hv
              injection hv with h2
              exact h2.symm
            subst hvv
            rw [if_pos rfl, lookupS_update_self hv0]
            rfl
          · rw [if_neg hseq, lookupS_update_ne st hseq]
            simpa using hv
      | some c =>
        cases hlt : dtLt c t with
        | true =>
          have hstep : lsStep students st sub =
              .ok (updateS st (toString sub.user_id) (some t)) := by
            simp only [lsStep, ho, ebind_ok, hmem, hv0, hlt]
            simp
          refine ⟨_, hstep, ?_, ?_⟩
          · intro s hs
            by_cases hseq : toString sub.user_id = s
            · subst hseq
              exact ⟨some t, lookupS_update_self hv0 _⟩
            · obtain ⟨v2, hv2⟩ := hinv s hs
              exact ⟨v2, by rw [lookupS_update_ne st hseq]; exact hv2⟩
          · intro s v hs hv
            rw [lsContrib_some s hps]
            by_cases hseq : toString sub.user_id = s
            · subst hseq
              have hvv : v = some c := by
                rw [hv0] at hv
                injection hv with h2
                exact h2.symm
              subst hvv
              rw [if_pos rfl, lookupS_update_self hv0]
              show some (some t) = some (lsMax (some c) t)
              rw [lsMax, hlt]
              simp
            · rw [if_neg hseq, lookupS_update_ne st hseq]
              simpa using hv
        | false =>
          have hstep : lsStep students st sub = .ok st := by
            simp only [lsStep, ho, ebind_ok, hmem, hv0, hlt]
            simp
          refine ⟨st, hstep, hinv, ?_⟩
          intro s v hs hv
          rw [lsContrib_some s hps]
          by_cases hseq : toString sub.user_id = s
          · subst hseq
            have hvv : v = some c := by
              rw [hv0] at hv
              injection hv with h2
              exact h2.symm
            subst hvv
            rw [if_pos rfl]
            show lookupS st (toString sub.user_id) = some (lsMax (some c) t)
            rw [lsMax, hlt]
            simpa using hv
          · rw [if_neg hseq]
            simpa using hv
    · have hstep : lsStep students st sub = .ok st := by
        simp only [lsStep, ho, ebind_ok, hmem]
        simp
      refine ⟨st, hstep, hinv, ?_⟩
      intro s v hs hv
      rw [lsContrib_some s hps]
      rw [if_neg (fun hcond => hmem (by rw [hcond]; exact hs))]
      simpa using hv

theorem lsSubs_char (students : List String) :
    ∀ (subs : List Submission) (st : StMap),
      (∀ sub ∈ subs, ∃ o, z_to_dt sub.submitted_at = .ok o) →
      (∀ s ∈ students, ∃ v, lookupS st s = some v) →
      ∃ st2, lsSubs students subs st = .ok st2 ∧
        (∀ s ∈ students, ∃ v, lookupS st2 s = some v) ∧
        (∀ s v, s ∈ students → lookupS st s = some v →
          lookupS st2 s = some (List.foldl lsMax v (flatMapL (lsContrib s) subs))) := by
  intro subs
  induction subs with
  | nil =>
    intro st hsubs hinv
    refine ⟨st, rfl, hinv, ?_⟩
    intro s v hs hv
    simpa using hv
  | cons sub rest ih =>
    intro st hsubs hinv
    obtain ⟨st1, hst1, hinv1, hchar1⟩ := lsStep_char students st sub
      (hsubs sub (List.mem_cons_self sub rest)) hinv
    obtain ⟨st2, hst2, hinv2, hchar2⟩ := ih st1
      (fun x hx => hsubs x (List.mem_cons_of_mem sub hx)) hinv1
    refine ⟨st2, ?_, hinv2, ?_⟩
    · rw [lsSubs, hst1, ebind_ok, hst2]
    · intro s v hs hv
      rw [flatMapL, List.foldl_append]
      exact hchar2 s _ hs (hchar1 s v hs hv)

theorem lsWalk_char (students : List String) (subsFor : Nat → List Submission) :
    ∀ (As : List Assignment) (st : StMap),
      (∀ a ∈ As, ∀ sub ∈ subsFor a.id, ∃ o, z_to_dt sub.submitted_at = .ok o) →
      (∀ s ∈ students, ∃ v, lookupS st s = some v) →
      ∃ st2, lsWalk students subsFor As st = .ok st2 ∧
        (∀ s ∈ students, ∃ v, lookupS st2 s = some v) ∧
        (∀ s v, s ∈ students → lookupS st s = some v →
          lookupS st2 s = some (List.foldl lsMax v
            (flatMapL (fun a => flatMapL (lsContrib s) (subsFor a.id)) As))) := by
  intro As
  induction As with
  | nil =>
    intro st hAs hinv
    refine ⟨st, rfl, hinv, ?_⟩
    intro s v hs hv
    simpa using hv
  | cons a rest ih =>
    intro st hAs hinv
    obtain ⟨st1, hst1, hinv1, hchar1⟩ := lsSubs_char students (subsFor a.id) st
      (hAs a (List.mem_cons_self a rest)) hinv
    obtain ⟨st2, hst2, hinv2, hchar2⟩ := ih st1
      (fun x hx => hAs x (List.mem_cons_of_mem a hx)) hinv1
    refine ⟨st2, ?_, hinv2, ?_⟩
    · rw [lsWalk, hst1, ebind_ok, hst2]
    · intro s v hs hv
      rw [flatMapL, List.foldl_append]
      exact hchar2 s _ hs (hchar1 s v hs hv)

theorem subTimes_eq_flat (snap : Snapshot) (sid : String) :
    subTimes snap sid =
      flatMapL (fun a => flatMapL (lsContrib sid) (snap.subsFor a.id))
        snap.assignments := by
  rw [subTimes]
  apply flatMapL_congr
  intro a ha
  generalize snap.subsFor a.id = l
  induction l with
  | nil => rfl
  | cons sub ls ihl =>
    rw [flatMapL]
    by_cases hu : toString sub.user_id = sid
    · cases hps : parsedSub sub with
      | none =>
        rw [lsContrib_none sid hps]
        have hcons : List.filterMap
            (fun sub => if toString sub.user_id = sid then parsedSub sub else none)
            (sub :: ls) = List.filterMap
            (fun sub => if toString sub.user_id = sid then parsedSub sub else none) ls := by
          simp [List.filterMap_cons, hu, hps]
        rw [hcons, ihl]
        rfl
      | some t =>
        rw [lsContrib_some sid hps, if_pos hu]
        have hcons : List.filterMap
            (fun sub => if toString sub.user_id = sid then parsedSub sub else none)
            (sub :: ls) = t :: List.filterMap
            (fun sub => if toString sub.user_id = sid then parsedSub sub else none) ls := by
          simp [List.filterMap_cons, hu, hps]
        rw [hcons, ihl]
        rfl
    · rw [show lsContrib sid sub = [] by
        rw [lsContrib]
        cases parsedSub sub
        · rfl
        · show (if toString sub.user_id = sid then _ else []) = []
          rw [if_neg hu]]
      have hcons : List.filterMap
          (fun sub => if toString sub.user_id = sid then parsedSub sub else none)
          (sub :: ls) = List.filterMap
          (fun sub => if toString sub.user_id = sid then parsedSub sub else none) ls := by
        simp [List.filterMap_cons, hu]
      rw [hcons, ihl]
      rfl

/-- C4: in last_participation.py, for every active student the computed
last submission value is the maximum parsed submitted_at instant over all
of the submissions of that student across every assignment, dated or not, and
it is None when no submission of theirs carries a timestamp. -/
theorem c4_theorem (snap : Snapshot) (sid : String)
    (hpar : SubParses snap) (hsid : sid ∈ snap.students) :
    ∃ res, last_submission snap = .ok res ∧
      lookupS res sid = some (listMaxD (subTimes snap sid)) := by
  have hinv0 : ∀ s ∈ snap.students, ∃ v,
      lookupS (snap.students.map (fun s => (s, (none : Option Datetime)))) s = some v := by
    intro s hs
    exact ⟨none, lookupS_map_mem hs _⟩
  obtain ⟨st2, hwalk, hinv2, hchar⟩ := lsWalk_char snap.students snap.subsFor
    snap.assignments _ hpar hinv0
  refine ⟨st2, ?_, ?_⟩
  · rw [last_submission, hwalk]
  · have hval := hchar sid none hsid (lookupS_map_mem hsid _)
    rw [foldl_lsMax_none] at hval
    rw [subTimes_eq_flat]
    exact hval

/-- Witness for C4 at a concrete course with one timestamped submission. -/
theorem c4_witness :
    ∃ res, last_submission snapW = .ok res ∧
      lookupS res "5" = some (listMaxD (subTimes snapW "5")) := by
  apply c4_theorem snapW "5" ?_ (by decide)
  intro a ha sub hsub
  simp only [snapW] at ha hsub
  rcases List.mem_cons.mp ha with rfl | ha2
  · simp at hsub
  · rcases List.mem_singleton.mp ha2 with rfl
    simp at hsub
    rw [hsub]
    exact ⟨some ⟨2024, 2, 2, 9, 30, 0⟩, by decide⟩

theorem nzStepP_cases (A : List Assignment) (students : List String) (st : StMap)
    (aid : Nat) (sub : Submission) :
    nzStepP A students st aid sub = .ok st ∨
    (∃ sid c d, lookupS st sid = some (some c) ∧ dtLt c d = true ∧
      nzStepP A students st aid sub = .ok (updateS st sid (some d))) ∨
    (∃ e, nzStepP A students st aid sub = .error e) := by
  by_cases hf : sub.score.isFloat = false
  · exact Or.inl (by rw [nzStepP, if_pos hf])
  · have hft : sub.score.isFloat = true := by simpa using hf
    cases hdo : dueOf A aid with
    | error e =>
      refine Or.inr (Or.inr ⟨e, ?_⟩)
      simp only [nzStepP, hft, hdo, ebind_err]
      simp
    | ok ds =>
      cases hz : z_to_dt ds with
      | error e =>
        refine Or.inr (Or.inr ⟨e, ?_⟩)
        simp only [nzStepP, hft, hdo, ebind_ok, hz, ebind_err]
        simp
      | ok od =>
        cases od with
        | none =>
          refine Or.inl ?_
          simp only [nzStepP, hft, hdo, ebind_ok, hz]
          simp
        | some d =>
          by_cases hmem : toString sub.user_id ∈ students
          · by_cases hq : 0 < sub.score.val
            · cases hl : lookupS st (toString sub.user_id) with
              | none =>
                refine Or.inr (Or.inr ⟨.keyError, ?_⟩)
                simp only [nzStepP, hft, hdo, ebind_ok, hz, hmem, hq, hl]
                simp
              | some v0 =>
                cases v0 with
                | none =>
                  refine Or.inr (Or.inr ⟨.typeError, ?_⟩)
                  simp only [nzStepP, hft, hdo, ebind_ok, hz, hmem, hq, hl]
                  simp
                | some c =>
                  cases hlt : dtLt c d with
                  | true =>
                    refine Or.inr (Or.inl ⟨toString sub.user_id, c, d, hl, hlt, ?_⟩)
                    simp only [nzStepP, hft, hdo, ebind_ok, hz, hmem, hq, hl, hlt]
                    simp
                  | false =>
                    refine Or.inl ?_
                    simp only [nzStepP, hft, hdo, ebind_ok, hz, hmem, hq, hl, hlt]
                    simp
            · refine Or.inl ?_
              simp only [nzStepP, hft, hdo, ebind_ok, hz, hmem, hq]
              simp
          · refine Or.inl ?_
            simp only [nzStepP, hft, hdo, ebind_ok, hz, hmem]
            simp

/-- C10: one step of the chronological nonzero-score walk either leaves
every student entry unchanged or replaces one entry by a strictly later
due date; no entry ever moves backward. -/
theorem c10_theorem (A : List Assignment) (students : List String) (st : StMap)
    (aid : Nat) (sub : Submission) (st2 : StMap)
    (h : nzStepP A students st aid sub = .ok st2) :
    ∀ s v, lookupS st s = some v → ∃ v2, lookupS st2 s = some v2 ∧
      (v2 = v ∨ ∃ c d, v = some c ∧ v2 = some d ∧ dtLt c d = true) := by
  rcases nzStepP_cases A students st aid sub with hcase |
    ⟨sid2, c, d, hl, hlt, hcase⟩ | ⟨e, hcase⟩
  · rw [hcase] at h
    injection h with h2
    subst h2
    exact fun s v hv => ⟨v, hv, Or.inl rfl⟩
  · rw [hcase] at h
    injection h with h2
    subst h2
    intro s v hv
    by_cases hseq : sid2 = s
    · subst hseq
      have hvc : v = some c := by
        rw [hl] at hv
        injection hv with h3
        exact h3.symm
      subst hvc
      exact ⟨some d, lookupS_update_self hl _, Or.inr ⟨c, d, rfl, rfl, hlt⟩⟩
    · exact ⟨v, by rw [lookupS_update_ne st hseq]; exact hv, Or.inl rfl⟩
  · rw [hcase] at h
    cases h

/-- Witness for C10 at a concrete advancing step. -/
theorem c10_witness :
    ∃ v2, lookupS (updateS [("5", some ⟨2024, 1, 1, 0, 0, 0⟩)] "5"
        (some ⟨2024, 2, 1, 0, 0, 0⟩)) "5" = some v2 ∧
      (v2 = some ⟨2024, 1, 1, 0, 0, 0⟩ ∨ ∃ c d, some ⟨2024, 1, 1, 0, 0, 0⟩ = some c ∧
        v2 = some d ∧ dtLt c d = true) := by
  apply c10_theorem snapW.assignments snapW.students
    [("5", some ⟨2024, 1, 1, 0, 0, 0⟩)] 2 ⟨5, Score.float 4, false, none⟩
    (updateS [("5", some ⟨2024, 1, 1, 0, 0, 0⟩)] "5" (some ⟨2024, 2, 1, 0, 0, 0⟩))
    (by decide) "5" (some ⟨2024, 1, 1, 0, 0, 0⟩) (by decide)

/-- C5 counterexample: an active student whose submission carries the
integer score 5 on a dated assignment due strictly after the seed is left
at the seed; the integer typed score is skipped by the float type test,
so the entry is not advanced as the claim requires. -/
theorem c5_counterexample :
    last_non_zero_score snapC5 = .ok [("7", some ⟨2024, 1, 1, 0, 0, 0⟩)] ∧
    snapC5.subsFor 2 = [⟨7, .int 5, false, none⟩] ∧
    parsedDue ⟨2, some "2024-02-01T00:00:00Z".data⟩ = some ⟨2024, 2, 1, 0, 0, 0⟩ ∧
    (⟨2024, 1, 1, 0, 0, 0⟩ : Datetime) ≠ ⟨2024, 2, 1, 0, 0, 0⟩ := by
  exact ⟨by decide, by decide, by decide, by decide⟩

/-- C5 amended: in the nonzero-score walk a submission is skipped exactly
when its score is not float typed, so null, string and also integer typed
scores are all skipped; a float scored submission on a dated assignment
by an active student advances the student entry exactly when the score is
strictly positive and the due date strictly later. -/
theorem c5_theorem (A : List Assignment) (students : List String) (st : StMap)
    (aid : Nat) (sub : Submission) :
    (sub.score.isFloat = false → nzStepP A students st aid sub = .ok st) ∧
    (∀ a q d c, A.find? (fun x => x.id == aid) = some a → sub.score = .float q →
      z_to_dt a.due_at = .ok (some d) →
      toString sub.user_id ∈ students →
      lookupS st (toString sub.user_id) = some (some c) →
      nzStepP A students st aid sub =
        .ok (if 0 < q ∧ dtLt c d = true
          then updateS st (toString sub.user_id) (some d) else st)) := by
  constructor
  · intro hf
    rw [nzStepP, if_pos hf]
  · intro a q d c hfind hsc hz hmem hl
    have hft : sub.score.isFloat = true := by rw [hsc]; rfl
    have hval : sub.score.val = q := by rw [hsc]; rfl
    have hdueOf : dueOf A aid = .ok a.due_at := by rw [dueOf, hfind]
    by_cases hq : 0 < q
    · cases hlt : dtLt c d with
      | true =>
        rw [if_pos ⟨hq, rfl⟩]
        have hqv : 0 < sub.score.val := by rw [hval]; exact hq
        simp only [nzStepP, hft, hdueOf, ebind_ok, hz, hmem, hqv, hl, hlt]
        simp
      | false =>
        rw [if_neg (fun hcond => by cases hcond.2)]
        have hqv : 0 < sub.score.val := by rw [hval]; exact hq
        simp only [nzStepP, hft, hdueOf, ebind_ok, hz, hmem, hqv, hl, hlt]
        simp
    · rw [if_neg (fun hcond => hq hcond.1)]
      have hqv : ¬ 0 < sub.score.val := by rw [hval]; exact hq
      simp only [nzStepP, hft, hdueOf, ebind_ok, hz, hmem, hqv]
      simp

/-- Witness for C5 at a skipped integer score and an advancing float
score. -/
theorem c5_witness :
    nzStepP snapC5.assignments snapC5.students [("7", some ⟨2024, 1, 1, 0, 0, 0⟩)]
      2 ⟨7, .int 5, false, none⟩ = .ok [("7", some ⟨2024, 1, 1, 0, 0, 0⟩)] ∧
    nzStepP snapW.assignments snapW.students [("5", some ⟨2024, 1, 1, 0, 0, 0⟩)]
      2 ⟨5, .float 4, false, none⟩ =
      .ok (if 0 < (4 : Rat) ∧ dtLt ⟨2024, 1, 1, 0, 0, 0⟩ ⟨2024, 2, 1, 0, 0, 0⟩ = true
        then updateS [("5", some ⟨2024, 1, 1, 0, 0, 0⟩)] "5" (some ⟨2024, 2, 1, 0, 0, 0⟩)
        else [("5", some ⟨2024, 1, 1, 0, 0, 0⟩)]) := by
  constructor
  · exact (c5_theorem snapC5.assignments snapC5.students
      [("7", some ⟨2024, 1, 1, 0, 0, 0⟩)] 2 ⟨7, .int 5, false, none⟩).1 (by decide)
  · exact (c5_theorem snapW.assignments snapW.students
      [("5", some ⟨2024, 1, 1, 0, 0, 0⟩)] 2 ⟨5, .float 4, false, none⟩).2
      ⟨2, some "2024-02-01T00:00:00Z".data⟩ 4 ⟨2024, 2, 1, 0, 0, 0⟩
      ⟨2024, 1, 1, 0, 0, 0⟩ (by decide) rfl (by decide) (by decide) (by decide)

/-- C3 counterexample: an active student whose only strictly positive
score is integer typed on an assignment due 2024-02-01 keeps the seeded
earliest due date 2024-01-01 instead of the claimed maximum due date over
the strictly positive submissions of the student. -/
theorem c3_counterexample :
    last_non_zero_score snapC3 = .ok [("9", some ⟨2024, 1, 1, 0, 0, 0⟩)] ∧
    snapC3.subsFor 2 = [⟨9, .int 3, false, none⟩] ∧
    parsedDue ⟨2, some "2024-02-01T00:00:00Z".data⟩ = some ⟨2024, 2, 1, 0, 0, 0⟩ ∧
    (⟨2024, 1, 1, 0, 0, 0⟩ : Datetime) ≠ ⟨2024, 2, 1, 0, 0, 0⟩ := by
  exact ⟨by decide, by decide, by decide, by decide⟩

/-- C1: a submission by a user who is not an active student is skipped by
every pass of last_participation.py, but the nonzero-score walk of
last_nonzero_score.py, which lacks the active-student test, raises a
KeyError on that submission when its float score is positive, instead of
ignoring it. -/
theorem c1_theorem :
    last_non_zero_score_nzs snapC1 = .error .keyError ∧
    last_non_zero_score snapC1 = .ok [("1", some ⟨2024, 1, 1, 0, 0, 0⟩)] ∧
    last_submission snapC1 = .ok [("1", none)] ∧
    toString (999 : Nat) ∉ snapC1.students := by
  exact ⟨by decide, by decide, by decide, by decide⟩

end Canvas
